import Mathlib

/-
Verification of `src/data_download/fetch_articles.py` (BridgeCon).

The Python module is shallowly embedded as follows.

* JSON values (the dynamic values the script manipulates) are the inductive
  type `J`.  JSON numbers are embedded as integers (all numeric fields of the
  source are counts); the one floating-point computation of the source
  (`round(cited / ref, 3)`) is embedded over exact rationals, with the
  round-half-to-even rule Python uses.
* Fallible Python evaluation (AttributeError / TypeError / KeyError on
  wrongly typed values) is embedded with `Except PyErr`.
* Python truthiness, `dict.get`, iteration, `set` construction (hashability,
  `==`-dedup) and `sorted` (comparability) are embedded by the `py*` helpers.
* The flattener `enhance_work_data` is `enhance`; its output dict has a fixed
  key set, embedded as the structure `Enhanced` (the optional key `journal`
  becomes an `Option`: `none` means the key is absent, the source never
  stores a null there).
* The pager `fetch_and_save_articles` is embedded as a state machine: the
  filesystem is `FS` (a jsonl file is the list of its record lines, a cursor
  checkpoint file is its string), HTTP is an oracle `List Resp` consumed one
  response per iteration, and the loop is `loop`.  Console output and the
  1-second sleep are not modelled.
-/

namespace BC

/-- JSON-like Python values. -/
inductive J where
  | null : J
  | bool : Bool → J
  | int : ℤ → J
  | str : String → J
  | arr : List J → J
  | obj : List (String × J) → J

/-- Python exceptions the script can raise while flattening. -/
inductive PyErr where
  | attributeError : PyErr
  | typeError : PyErr
  | keyError : PyErr
deriving DecidableEq

/-- Python truthiness of a value. -/
def pyTruthy : J → Bool
  | .null => false
  | .bool b => b
  | .int n => n ≠ 0
  | .str s => s ≠ ""
  | .arr xs => !xs.isEmpty
  | .obj kvs => !kvs.isEmpty

/-- Hashable Python values (lists and dicts are unhashable). -/
def pyHashable : J → Bool
  | .arr _ => false
  | .obj _ => false
  | _ => true

/-- Python `==` on the values that can enter a set (atoms; `True == 1`).
Lists and dicts never reach a set: adding them raises first. -/
def pyEq : J → J → Bool
  | .null, .null => true
  | .bool a, .bool b => a = b
  | .bool a, .int n => (if a then 1 else 0) = n
  | .int n, .bool b => n = (if b then 1 else 0)
  | .int a, .int b => a = b
  | .str a, .str b => a = b
  | _, _ => false

/-- Add a value to a Python set (modelled as an insertion-ordered
duplicate-free list). -/
def pyInsert (s : List J) (x : J) : List J :=
  if s.any (fun y => pyEq y x) then s else s ++ [x]

/-- The contents of `set(xs)` in insertion order. -/
def pyDedup (xs : List J) : List J :=
  xs.foldl pyInsert []

/-- `v.get(k, d)`: AttributeError unless `v` is a dict. -/
def pyGetD (v : J) (k : String) (d : J) : Except PyErr J :=
  match v with
  | .obj kvs => .ok ((kvs.lookup k).getD d)
  | _ => .error .attributeError

/-- `v.get(k)` (default `None`). -/
def pyGet (v : J) (k : String) : Except PyErr J :=
  pyGetD v k .null

/-- `v[k]`: KeyError on a dict without the key, TypeError on non-dicts. -/
def pyIndex (v : J) (k : String) : Except PyErr J :=
  match v with
  | .obj kvs =>
    match kvs.lookup k with
    | some x => .ok x
    | none => .error .keyError
  | _ => .error .typeError

/-- Python iteration: lists yield elements, strings yield one-character
strings, dicts yield their keys; other values are not iterable. -/
def pyIter : J → Except PyErr (List J)
  | .arr xs => .ok xs
  | .str s => .ok (s.data.map (fun ch => J.str (String.mk [ch])))
  | .obj kvs => .ok (kvs.map (fun p => J.str p.1))
  | _ => .error .typeError

/-- Pure lookup `w.get(k, d)` for a value already known to be a dict
(`.null` on non-dicts; only used to state theorems). -/
def getValD (w : J) (k : String) (d : J) : J :=
  match w with
  | .obj kvs => (kvs.lookup k).getD d
  | _ => .null

/-- Pure lookup `w.get(k)` for a value already known to be a dict. -/
def getVal (w : J) (k : String) : J :=
  getValD w k .null

/-- The string content of a value, the empty string on non-strings (used to
state the research-topic synthesis: non-string titles are either falsy,
hence skipped like the empty string, or make the flattening raise). -/
def pyStrOrEmpty : J → String
  | .str s => s
  | _ => ""

/-- Truthiness of a string. -/
def nonEmptyStr (s : String) : Bool := s ≠ ""

/-- Extract the strings of a list of values, if all are strings. -/
def asStrs : List J → Option (List String)
  | [] => some []
  | .str s :: t => (asStrs t).map (fun ts => s :: ts)
  | _ => none

/-- Map a fallible function over a list, left to right (how a Python list
comprehension evaluates). -/
def exMapM {ε α β : Type} (f : α → Except ε β) : List α → Except ε (List β)
  | [] => .ok []
  | a :: l => do
    let b ← f a
    let bs ← exMapM f l
    pure (b :: bs)

/-- Code-point lexicographic comparison of character lists (how Python
compares strings). -/
def charListLt : List Char → List Char → Bool
  | [], [] => false
  | [], _ :: _ => true
  | _ :: _, [] => false
  | a :: as, b :: bs =>
    if a = b then charListLt as bs else decide (a.toNat < b.toNat)

/-- Python `a < b` on strings. -/
def pyStrLt (a b : String) : Bool := charListLt a.data b.data

/-- Python `a <= b` on strings. -/
def pyStrLe (a b : String) : Bool := !pyStrLt b a

/-- Insert into a list sorted by the boolean relation `le`. -/
def bInsert {α : Type} (le : α → α → Bool) (x : α) : List α → List α
  | [] => [x]
  | y :: ys => if le x y then x :: y :: ys else y :: bInsert le x ys

/-- Insertion sort by the boolean relation `le` (stable, like the sort
Python applies). -/
def bSort {α : Type} (le : α → α → Bool) : List α → List α
  | [] => []
  | x :: xs => bInsert le x (bSort le xs)

/-- Numeric Python values (bools are numbers). -/
def isNum : J → Bool
  | .int _ => true
  | .bool _ => true
  | _ => false

/-- Numeric value of a number-like `J` (meaningful when `isNum`). -/
def numVal : J → ℤ
  | .int n => n
  | .bool b => if b then 1 else 0
  | _ => 0

/-- `sorted` of an already deduplicated list: a list of length at least two
sorts only when its elements are mutually comparable (all strings, or all
numbers); no comparison happens on shorter lists. -/
def sortAfterDedup (d : List J) : Except PyErr (List J) :=
  if d.length ≤ 1 then .ok d
  else
    match asStrs d with
    | some ss => .ok ((bSort pyStrLe ss).map J.str)
    | none =>
      if d.all isNum then
        .ok (bSort (fun a b => decide (numVal a ≤ numVal b)) d)
      else .error .typeError

/-- `sorted(set(xs))`: TypeError if some element is unhashable, then sort
the `==`-deduplicated contents. -/
def pySortedSet (xs : List J) : Except PyErr (List J) :=
  if xs.any (fun x => !pyHashable x) then .error .typeError
  else sortAfterDedup (pyDedup xs)

/-- `sep.join(xs)`: TypeError unless every element is a string. -/
def pyJoin (sep : String) (xs : List J) : Except PyErr String :=
  match asStrs xs with
  | some ss => .ok (String.intercalate sep ss)
  | none => .error .typeError

/-- Round a rational to the nearest integer, ties to even (Python rounding). -/
def rndHalfEven (q : ℚ) : ℤ :=
  if q - (⌊q⌋ : ℚ) < 1/2 then ⌊q⌋
  else if 1/2 < q - (⌊q⌋ : ℚ) then ⌊q⌋ + 1
  else if 2 ∣ ⌊q⌋ then ⌊q⌋ else ⌊q⌋ + 1

/-- `round(q, 3)` over exact rationals. -/
def pyRound3 (q : ℚ) : ℚ :=
  (rndHalfEven (q * 1000) : ℚ) / 1000

/-- A numeric operand: its rational value, TypeError otherwise. -/
def pyNumQ : J → Except PyErr ℚ
  | .int n => .ok (n : ℚ)
  | .bool b => .ok (if b then 1 else 0)
  | _ => .error .typeError

/-- Flat institution record (`institutions` entries of an author). -/
structure InstRec where
  institution_id : J
  institution_name : J
  country : J
  type : J

/-- Flat author record (one `authorships` entry). -/
structure AuthorRec where
  author_id : J
  author_name : J
  orcid : J
  position : J
  institutions : List InstRec

/-- Journal projection (`journal` key, present only sometimes). -/
structure Journal where
  name : J
  type : J
  issn : J
  is_oa : J

/-- The flat record `enhance_work_data` builds.  `citation_per_reference`
models the key `citation_per_reference_ratio` of the source; `journal = none`
models the key being absent. -/
structure Enhanced where
  id : J
  title : J
  publication_year : J
  cited_by_count : J
  referenced_works_count : J
  type : J
  authors : List AuthorRec
  authors_count : ℕ
  institutions_count : ℕ
  fields : List J
  domains : List J
  keywords : List J
  is_multidisciplinary : Bool
  top_keywords : List J
  citation_per_reference : ℚ
  journal : Option Journal
  research_topic : String

/-- One institution dict projected to its flat record (source lines 114-119). -/
def projInst (i : J) : Except PyErr InstRec := do
  let iid ← pyGetD i "id" .null
  let nm ← pyGetD i "display_name" .null
  let co ← pyGetD i "country" .null
  let ty ← pyGetD i "type" .null
  pure ⟨iid, nm, co, ty⟩

/-- One authorship dict projected to its flat author record
(source lines 108-122). -/
def projAuthor (a : J) : Except PyErr AuthorRec := do
  let au ← pyGetD a "author" (.obj [])
  let aid ← pyGetD au "id" .null
  let anm ← pyGetD au "display_name" .null
  let orc ← pyGetD au "orcid" .null
  let pos ← pyGetD a "author_position" .null
  let instsJ ← pyGetD a "institutions" (.arr [])
  let insts ← pyIter instsJ
  let irecs ← exMapM projInst insts
  pure ⟨aid, anm, orc, pos, irecs⟩

/-- The institutions of one authorship (`auth.get("institutions", [])`). -/
def authInsts (a : J) : Except PyErr (List J) := do
  let instsJ ← pyGetD a "institutions" (.arr [])
  pyIter instsJ

/-- Add the truthy institution display names of one authorship to the
running set (source lines 123-125); adding an unhashable value raises. -/
def addInstNames (s : List J) (a : J) : Except PyErr (List J) := do
  let insts ← authInsts a
  insts.foldlM (fun acc i => do
    let n ← pyGetD i "display_name" .null
    if pyTruthy n then
      if pyHashable n then pure (pyInsert acc n) else throw .typeError
    else pure acc) s

/-- The authorship loop (source lines 105-126): builds the flat author list
and the distinct-institution-name set, one authorship at a time. -/
def authorsStep (w : J) : Except PyErr (List AuthorRec × List J) := do
  let authsJ ← pyGetD w "authorships" (.arr [])
  let auths ← pyIter authsJ
  auths.foldlM (fun acc a => do
    let ar ← projAuthor a
    let s ← addInstNames acc.2 a
    pure (acc.1 ++ [ar], s)) (([] : List AuthorRec), ([] : List J))

/-- The comprehension collecting `topic[key].get("display_name")` over
truthy `topic.get(key)` (source lines 132-133, key is field or domain). -/
def topicVals (w : J) (key : String) : Except PyErr (List J) := do
  let tsJ ← pyGetD w "topics" (.arr [])
  let ts ← pyIter tsJ
  ts.foldlM (fun acc t => do
    let fv ← pyGetD t key .null
    if pyTruthy fv then do
      let fv2 ← pyIndex t key
      let dn ← pyGetD fv2 "display_name" .null
      pure (acc ++ [dn])
    else pure acc) []

/-- `concepts[].display_name` (source line 134). -/
def conceptNamesOf (w : J) : Except PyErr (List J) := do
  let csJ ← pyGetD w "concepts" (.arr [])
  let cs ← pyIter csJ
  exMapM (fun k => pyGetD k "display_name" .null) cs

/-- `keywords[].keyword` (source line 135). -/
def kwNamesOf (w : J) : Except PyErr (List J) := do
  let ksJ ← pyGetD w "keywords" (.arr [])
  let ks ← pyIter ksJ
  exMapM (fun k => pyGetD k "keyword" .null) ks

/-- The keyword source list: concept names, else (`or` short-circuit,
taken only when the left list is empty) the keyword entries. -/
def keywordsRawOf (w : J) : Except PyErr (List J) := do
  let cn ← conceptNamesOf w
  if cn.isEmpty then kwNamesOf w else pure cn

/-- `round((cited or 0) / (ref or 1), 3)` (source lines 144-145), over the
stored `cited_by_count` and `referenced_works_count` values. -/
def ratioStep (cited refc : J) : Except PyErr ℚ := do
  let c ← pyNumQ (if pyTruthy cited then cited else .int 0)
  let r ← pyNumQ (if pyTruthy refc then refc else .int 1)
  pure (pyRound3 (c / r))

/-- The journal projection (source lines 148-155): present exactly when
`work.get("primary_location")` and its `source` are truthy. -/
def journalOf (w : J) : Except PyErr (Option Journal) := do
  let pl ← pyGet w "primary_location"
  if pyTruthy pl then do
    let pl2 ← pyIndex w "primary_location"
    let srcTest ← pyGetD pl2 "source" .null
    if pyTruthy srcTest then do
      let pl3 ← pyIndex w "primary_location"
      let src ← pyIndex pl3 "source"
      let nm ← pyGetD src "display_name" .null
      let ty ← pyGetD src "type" .null
      let issn ← pyGetD src "issn" .null
      let oa ← pyGetD src "is_oa" .null
      pure (some ⟨nm, ty, issn, oa⟩)
    else pure none
  else pure none

/-- The `research_topic` synthesis (source lines 158-164): pipe-join the
truthy ones among title, joined fields, joined domains, joined top keywords. -/
def topicStep (title : J) (fields domains top : List J) : Except PyErr String :=
  (if fields.isEmpty then pure "" else pyJoin ", " fields) >>= fun p1 =>
  (if domains.isEmpty then pure "" else pyJoin ", " domains) >>= fun p2 =>
  (if top.isEmpty then pure "" else pyJoin ", " top) >>= fun p3 =>
  pyJoin " | " (([title, J.str p1, J.str p2, J.str p3]).filter pyTruthy)

/-- `enhance_work_data` (source lines 89-166), step for step in source
order. -/
def enhance (w : J) : Except PyErr Enhanced := do
  let idv ← pyGet w "id"
  let title ← pyGet w "display_name"
  let pub ← pyGet w "publication_year"
  let cited ← pyGet w "cited_by_count"
  let refc ← pyGet w "referenced_works_count"
  let ty ← pyGet w "type"
  let ai ← authorsStep w
  let fieldsR ← topicVals w "field"
  let domainsR ← topicVals w "domain"
  let kwR ← keywordsRawOf w
  let fields ← pySortedSet fieldsR
  let domains ← pySortedSet domainsR
  let keywords ← pySortedSet kwR
  let cpr ← ratioStep cited refc
  let jr ← journalOf w
  let rt ← topicStep title fields domains (keywords.take 5)
  pure ⟨idv, title, pub, cited, refc, ty, ai.1, ai.1.length, ai.2.length,
    fields, domains, keywords, decide (fields.length > 1), keywords.take 5,
    cpr, jr, rt⟩

/-! ### Shape of well-formed raw records -/

/-- A string or null value. -/
def strOrNull : J → Bool
  | .null => true
  | .str _ => true
  | _ => false

/-- An integer or null value. -/
def intOrNull : J → Bool
  | .null => true
  | .int _ => true
  | _ => false

/-- An array all of whose elements satisfy `p`. -/
def isArrAll (p : J → Bool) : J → Bool
  | .arr l => l.all p
  | _ => false

/-- Expected shape of one institution entry: a dict whose display name,
when present, is a string. -/
def WFinst (i : J) : Bool :=
  match i with
  | .obj _ => strOrNull (getVal i "display_name")
  | _ => false

/-- Expected shape of one authorship entry: a dict whose author, when
present, is a dict, and whose institutions, when present, are a list of
well-shaped institution dicts. -/
def WFauth (a : J) : Bool :=
  match a with
  | .obj _ =>
    (match getValD a "author" (.obj []) with
     | .obj _ => true
     | _ => false)
    && isArrAll WFinst (getValD a "institutions" (.arr []))
  | _ => false

/-- Expected shape of the value of `topic.get("field")` or
`topic.get("domain")`: when truthy it is a dict with a string display name. -/
def WFfieldVal (v : J) : Bool :=
  if pyTruthy v then
    match v with
    | .obj _ =>
      match getVal v "display_name" with
      | .str _ => true
      | _ => false
    | _ => false
  else true

/-- Expected shape of one topic entry. -/
def WFtopic (t : J) : Bool :=
  match t with
  | .obj _ => WFfieldVal (getVal t "field") && WFfieldVal (getVal t "domain")
  | _ => false

/-- Expected shape of one concept entry: a dict with a string display name. -/
def WFconcept (c : J) : Bool :=
  match c with
  | .obj _ =>
    match getVal c "display_name" with
    | .str _ => true
    | _ => false
  | _ => false

/-- Expected shape of one keyword entry: a dict with a string keyword. -/
def WFkw (k : J) : Bool :=
  match k with
  | .obj _ =>
    match getVal k "keyword" with
    | .str _ => true
    | _ => false
  | _ => false

/-- Expected shape of `primary_location`: null (or absent), or a dict whose
source, when present, is a dict. -/
def WFpl (v : J) : Bool :=
  match v with
  | .null => true
  | .obj _ =>
    match getVal v "source" with
    | .null => true
    | .obj _ => true
    | _ => false
  | _ => false

/-- A raw record of the expected OpenAlex shape: a dict whose nested values,
where present, have their expected JSON types; every field may be missing.
This is the class of records claim C2 calls raw records with missing nested
structure only. -/
def WF (w : J) : Bool :=
  match w with
  | .obj _ =>
    strOrNull (getVal w "display_name")
    && intOrNull (getVal w "cited_by_count")
    && intOrNull (getVal w "referenced_works_count")
    && isArrAll WFauth (getValD w "authorships" (.arr []))
    && isArrAll WFtopic (getValD w "topics" (.arr []))
    && isArrAll WFconcept (getValD w "concepts" (.arr []))
    && isArrAll WFkw (getValD w "keywords" (.arr []))
    && WFpl (getVal w "primary_location")
  | _ => false

/-! ### Conditions for the journal projection (claim C9) -/

/-- The condition of claim C9, read from the claim wording: the record
exposes a `primary_location` with a `source` object (any object, the claim
does not require it to be non-empty). -/
def specExposes (w : J) : Bool :=
  match getVal w "primary_location" with
  | .obj p =>
    match p.lookup "source" with
    | some (.obj _) => true
    | _ => false
  | _ => false

/-- The condition the code actually tests: a non-empty (truthy)
`primary_location` dict whose `source` is a non-empty (truthy) dict. -/
def exposesJournal (w : J) : Bool :=
  match getVal w "primary_location" with
  | .obj p =>
    !p.isEmpty
    && (match (p.lookup "source").getD .null with
        | .obj s => !s.isEmpty
        | _ => false)
  | _ => false

/-! ### Flat-side institution names (claim C10) -/

/-- The truthy institution names of one flat author record, in order. -/
def truthyNamesA (ar : AuthorRec) : List J :=
  ar.institutions.foldl
    (fun acc i =>
      if pyTruthy i.institution_name then acc ++ [i.institution_name] else acc)
    []

/-- All truthy institution names across a flat author list, in order. -/
def flatInstNames (l : List AuthorRec) : List J :=
  l.foldl (fun acc ar => acc ++ truthyNamesA ar) []

/-- Relation between one authorship entry and its flat author record: the
institutions of the entry, projected, are exactly the flat institutions
list. -/
def authRel (a : J) (ar : AuthorRec) : Prop :=
  ∃ insts, authInsts a = .ok insts ∧
    exMapM projInst insts = .ok ar.institutions

/-! ### Concrete example records -/

/-- The flat record of the empty raw record `{}`. -/
def e0 : Enhanced :=
  ⟨.null, .null, .null, .null, .null, .null, [], 0, 0, [], [], [],
    false, [], 0, none, ""⟩

/-- A malformed raw record: `{"authorships": [5]}` (an authorship entry that
is not a dict). -/
def wC2cex : J := .obj [("authorships", .arr [.int 5])]

/-- `{"cited_by_count": 7, "referenced_works_count": 3}`. -/
def wC3ex : J :=
  .obj [("cited_by_count", .int 7), ("referenced_works_count", .int 3)]

/-- A record with duplicated, unordered topic fields and concepts. -/
def wC6ex : J :=
  .obj
    [("topics", .arr
        [.obj [("field", .obj [("display_name", .str "B")])],
         .obj [("field", .obj [("display_name", .str "A")]),
               ("domain", .obj [("display_name", .str "D")])],
         .obj [("field", .obj [("display_name", .str "B")])]]),
     ("concepts", .arr
        [.obj [("display_name", .str "z")],
         .obj [("display_name", .str "a")],
         .obj [("display_name", .str "z")]])]

/-- A record with six unordered concept names. -/
def wC7ex : J :=
  .obj
    [("concepts", .arr
        [.obj [("display_name", .str "f")],
         .obj [("display_name", .str "e")],
         .obj [("display_name", .str "d")],
         .obj [("display_name", .str "c")],
         .obj [("display_name", .str "b")],
         .obj [("display_name", .str "a")]])]

/-- The record of the claim C8 example: title `T`, fields `B`, `A`, no
domains, keywords `x`, `y`. -/
def wC8ex : J :=
  .obj
    [("display_name", .str "T"),
     ("topics", .arr
        [.obj [("field", .obj [("display_name", .str "B")])],
         .obj [("field", .obj [("display_name", .str "A")])]]),
     ("concepts", .arr
        [.obj [("display_name", .str "x")],
         .obj [("display_name", .str "y")]])]

/-- `{"primary_location": {"source": {}}}`: a primary location with an
empty source object. -/
def wC9cex : J := .obj [("primary_location", .obj [("source", .obj [])])]

/-- One authorship with one institution entry that has an id but no display
name. -/
def wC10ex : J :=
  .obj [("authorships", .arr
    [.obj [("institutions", .arr [.obj [("id", .str "I1")]])]])]

/-- A rich well-shaped record exercising every branch of the flattener. -/
def wWFex : J :=
  .obj
    [("id", .str "W1"),
     ("display_name", .str "Work one"),
     ("publication_year", .int 2023),
     ("cited_by_count", .int 10),
     ("referenced_works_count", .int 4),
     ("type", .str "article"),
     ("authorships", .arr
        [.obj [("author", .obj [("id", .str "A1"),
                                ("display_name", .str "Ada")]),
               ("author_position", .str "first"),
               ("institutions", .arr
                  [.obj [("id", .str "I1"),
                         ("display_name", .str "MIT")],
                   .obj [("id", .str "I2")]])]]),
     ("topics", .arr
        [.obj [("field", .obj [("display_name", .str "CS")]),
               ("domain", .obj [("display_name", .str "Phys")])]]),
     ("concepts", .arr [.obj [("display_name", .str "nets")]]),
     ("primary_location", .obj
        [("source", .obj [("display_name", .str "Nature"),
                          ("type", .str "journal"),
                          ("issn", .str "123"),
                          ("is_oa", .bool true)])])]

/-- The flat record of a raw record on which `enhance` succeeds (defaults
to `e0`; used only to name concrete witness values). -/
def flatOf (w : J) : Enhanced :=
  ((enhance w).toOption).getD e0

/-! ### The pager `fetch_and_save_articles` -/

/-- One HTTP response of the external source: status code, parsed
`results` list, parsed `meta.next_cursor` (`none` embeds JSON null). -/
structure Resp where
  status : ℕ
  results : List J
  nextCursor : Option String

/-- How a pager run can fail to return a final state: a Python exception
escaping from the flattening of a record, or the finite response oracle
being exhausted before the loop decided to stop. -/
inductive RunErr where
  | py : PyErr → RunErr
  | noResponse : RunErr
deriving DecidableEq

/-- The year-scoped output directory: the cumulative jsonl file (its list of
record lines), the per-page jsonl files and the per-page cursor checkpoint
files, keyed by page index.  A jsonl line is identified with the flat record
it serialises (`json.dumps` emits exactly one line per record). -/
structure FS where
  main : List Enhanced
  pages : List (ℤ × List Enhanced)
  cursors : List (ℤ × String)

/-- The in-memory run state: the current request cursor (`params["cursor"]`),
the two counters, and the files. -/
structure RunSt where
  cursor : String
  page_count : ℤ
  total_downloaded : ℕ
  main : List Enhanced
  pages : List (ℤ × List Enhanced)
  cursors : List (ℤ × String)

/-- Write a keyed file, keeping the directory listing sorted by key. -/
def upsert {α : Type} : List (ℤ × α) → ℤ → α → List (ℤ × α)
  | [], k, v => [(k, v)]
  | (k', v') :: t, k, v =>
    if k < k' then (k, v) :: (k', v') :: t
    else if k = k' then (k, v) :: t
    else (k', v') :: upsert t k v

/-- `range(a, b)` over integers. -/
def intRange (a b : ℤ) : List ℤ :=
  (List.range (b - a).toNat).map (fun k => a + (k : ℤ))

/-- Strip leading and trailing whitespace (`str.strip()` on the checkpoint
token read back from disk). -/
def pyStrip (s : String) : String :=
  String.mk
    (((s.data.dropWhile Char.isWhitespace).reverse.dropWhile
      Char.isWhitespace).reverse)

/-- A fresh run: cursor `*`, zero counters, cumulative file opened in
overwrite mode. -/
def freshInit (pre : FS) : RunSt :=
  ⟨"*", 0, 0, [], pre.pages, pre.cursors⟩

/-- The pre-loop setup (source lines 28-50): resume bookkeeping when
`resume_from_page` is truthy and its checkpoint file exists, a fresh run
otherwise.  Reading the checkpoint strips surrounding whitespace. -/
def initRun : Option ℤ → FS → RunSt
  | some r, pre =>
    if r ≠ 0 then
      match pre.cursors.lookup (r - 1) with
      | some c =>
        ⟨pyStrip c, r - 1,
          ((intRange 1 r).map
            (fun i => ((pre.pages.lookup i).getD []).length)).sum,
          pre.main, pre.pages, pre.cursors⟩
      | none => freshInit pre
    else freshInit pre
  | none, pre => freshInit pre

/-- The pagination loop (source lines 53-84), one oracle response per
iteration: bump the page counter, request; a non-200 status breaks; a 200
response has its records flattened and written to the page file and the
cumulative file; a truthy next cursor is checkpointed and the loop repeats,
otherwise the loop ends. -/
def loop : List Resp → RunSt → Except RunErr RunSt
  | [], _ => .error .noResponse
  | r :: rest, st =>
    if r.status ≠ 200 then .ok {st with page_count := st.page_count + 1}
    else
      match exMapM enhance r.results with
      | .error e => .error (.py e)
      | .ok lines =>
        match r.nextCursor with
        | some c =>
          if c ≠ "" then
            loop rest
              ⟨c, st.page_count + 1,
                st.total_downloaded + r.results.length, st.main ++ lines,
                upsert st.pages (st.page_count + 1) lines,
                upsert st.cursors (st.page_count + 1) c⟩
          else
            .ok ⟨st.cursor, st.page_count + 1,
              st.total_downloaded + r.results.length, st.main ++ lines,
              upsert st.pages (st.page_count + 1) lines, st.cursors⟩
        | none =>
          .ok ⟨st.cursor, st.page_count + 1,
            st.total_downloaded + r.results.length, st.main ++ lines,
            upsert st.pages (st.page_count + 1) lines, st.cursors⟩

/-- `fetch_and_save_articles(year, resume_from_page)` against a response
oracle (the year only selects the filter string and directory name, which
the embedding scopes away). -/
def runFetch (resume : Option ℤ) (pre : FS) (oracle : List Resp) :
    Except RunErr RunSt :=
  loop oracle (initRun resume pre)

/-- The state update of one successful 200 page whose next cursor is truthy
(the continue path of one loop iteration). -/
def contStep (st : RunSt) (r : Resp) : Except RunErr RunSt :=
  match exMapM enhance r.results with
  | .error e => .error (.py e)
  | .ok lines =>
    .ok ⟨r.nextCursor.getD "", st.page_count + 1,
      st.total_downloaded + r.results.length, st.main ++ lines,
      upsert st.pages (st.page_count + 1) lines,
      upsert st.cursors (st.page_count + 1) (r.nextCursor.getD "")⟩

/-- The page indices 1..n. -/
def pageKeys (n : ℕ) : List ℤ :=
  (List.range n).map (fun k => (k : ℤ) + 1)

/-- The concatenation of the per-page files in index order. -/
def joinPages (pages : List (ℤ × List Enhanced)) : List Enhanced :=
  (pages.map Prod.snd).flatten

/-! ### Concrete pager states and responses -/

/-- A 200 response carrying no records and no next cursor (last page). -/
def respEnd : Resp := ⟨200, [], none⟩

/-- A 200 response carrying one empty record and the next cursor `c1`. -/
def respOne : Resp := ⟨200, [.obj []], some "c1"⟩

/-- A failing response. -/
def respFail : Resp := ⟨404, [], none⟩

/-- A filesystem state left by a completed two-page run: the invariant of
claim C1 holds in it. -/
def preC1 : FS := ⟨[e0, e0], [(1, [e0]), (2, [e0])], [(1, "t1")]⟩

/-- A one-completed-page filesystem state, resumable from page 2. -/
def preResume : FS := ⟨[e0], [(1, [e0])], [(1, "tok")]⟩

/-- A two-completed-pages filesystem state with a padded checkpoint token. -/
def preC4 : FS := ⟨[e0, e0, e0], [(1, [e0]), (2, [e0, e0])], [(2, " ctok ")]⟩

/-! ## Lemmas -/

theorem epure_eq_ok {ε α : Type} (a : α) : (pure a : Except ε α) = .ok a := rfl

@[simp] theorem eok_bind {ε α β : Type} (a : α) (f : α → Except ε β) :
    (Except.ok a >>= f : Except ε β) = f a := rfl

@[simp] theorem eerr_bind {ε α β : Type} (e : ε) (f : α → Except ε β) :
    (Except.error e >>= f : Except ε β) = .error e := rfl

theorem ebind_eq_ok {ε α β : Type} {x : Except ε α} {f : α → Except ε β}
    {b : β} : (x >>= f) = .ok b ↔ ∃ a, x = .ok a ∧ f a = .ok b := by
  cases x with
  | error e => simp
  | ok a => simp

theorem pyGetD_obj (kvs : List (String × J)) (k : String) (d : J) :
    pyGetD (J.obj kvs) k d = .ok ((kvs.lookup k).getD d) := rfl

theorem pyIter_arr (xs : List J) : pyIter (J.arr xs) = .ok xs := rfl

/-- Success of `enhance` decomposed into the success of each step, in
source order, together with the value of the flat record. -/
theorem enhance_ok_parts {w : J} {flat : Enhanced} (h : enhance w = .ok flat) :
    ∃ kvs ai fieldsR domainsR kwR fields domains keywords cpr jr rt,
      w = J.obj kvs ∧
      authorsStep w = .ok ai ∧
      topicVals w "field" = .ok fieldsR ∧
      topicVals w "domain" = .ok domainsR ∧
      keywordsRawOf w = .ok kwR ∧
      pySortedSet fieldsR = .ok fields ∧
      pySortedSet domainsR = .ok domains ∧
      pySortedSet kwR = .ok keywords ∧
      ratioStep (getVal w "cited_by_count")
        (getVal w "referenced_works_count") = .ok cpr ∧
      journalOf w = .ok jr ∧
      topicStep (getVal w "display_name") fields domains
        (keywords.take 5) = .ok rt ∧
      flat = ⟨getVal w "id", getVal w "display_name",
        getVal w "publication_year", getVal w "cited_by_count",
        getVal w "referenced_works_count", getVal w "type",
        ai.1, ai.1.length, ai.2.length, fields, domains, keywords,
        decide (fields.length > 1), keywords.take 5, cpr, jr, rt⟩ := by
  cases w with
  | null => simp [enhance, pyGet, pyGetD] at h
  | bool b => simp [enhance, pyGet, pyGetD] at h
  | int n => simp [enhance, pyGet, pyGetD] at h
  | str s => simp [enhance, pyGet, pyGetD] at h
  | arr xs => simp [enhance, pyGet, pyGetD] at h
  | obj kvs =>
    simp only [enhance, pyGet, pyGetD, eok_bind] at h
    rw [ebind_eq_ok] at h
    obtain ⟨ai, hai, h⟩ := h
    rw [ebind_eq_ok] at h
    obtain ⟨fieldsR, hfR, h⟩ := h
    rw [ebind_eq_ok] at h
    obtain ⟨domainsR, hdR, h⟩ := h
    rw [ebind_eq_ok] at h
    obtain ⟨kwR, hkR, h⟩ := h
    rw [ebind_eq_ok] at h
    obtain ⟨fields, hf, h⟩ := h
    rw [ebind_eq_ok] at h
    obtain ⟨domains, hd, h⟩ := h
    rw [ebind_eq_ok] at h
    obtain ⟨keywords, hk, h⟩ := h
    rw [ebind_eq_ok] at h
    obtain ⟨cpr, hc, h⟩ := h
    rw [ebind_eq_ok] at h
    obtain ⟨jr, hj, h⟩ := h
    rw [ebind_eq_ok] at h
    obtain ⟨rt, hrt, h⟩ := h
    rw [epure_eq_ok] at h
    injection h with h2
    exact ⟨kvs, ai, fieldsR, domainsR, kwR, fields, domains, keywords,
      cpr, jr, rt, rfl, hai, hfR, hdR, hkR, hf, hd, hk, hc, hj, hrt, h2.symm⟩

/-- Claim C7: for every raw record the flattened `top_keywords` equals
exactly the first `min(5, len(keywords))` entries of the sorted deduplicated
keyword list, a prefix of that sorted list. -/
theorem claim7_top_keywords {w : J} {flat : Enhanced}
    (h : enhance w = .ok flat) :
    flat.top_keywords = flat.keywords.take 5 ∧
    flat.top_keywords.length = min 5 flat.keywords.length ∧
    ∃ t, flat.top_keywords ++ t = flat.keywords := by
  obtain ⟨kvs, ai, fR, dR, kR, fs, ds, ks, cpr, jr, rt, hw, _, _, _, _, _,
    _, _, _, _, _, hflat⟩ := enhance_ok_parts h
  subst hflat
  exact ⟨rfl, by simp, ⟨ks.drop 5, List.take_append_drop 5 ks⟩⟩

/-- Witness for claim C7 at a record with six unordered concept names. -/
theorem claim7_witness :
    ∃ flat, enhance wC7ex = .ok flat ∧
      (flat.top_keywords = flat.keywords.take 5 ∧
       flat.top_keywords.length = min 5 flat.keywords.length ∧
       ∃ t, flat.top_keywords ++ t = flat.keywords) :=
  ⟨flatOf wC7ex, rfl, @claim7_top_keywords wC7ex (flatOf wC7ex) rfl⟩

theorem rndHalfEven_nonneg {q : ℚ} (h : 0 ≤ q) : 0 ≤ rndHalfEven q := by
  unfold rndHalfEven
  have hf : (0 : ℤ) ≤ ⌊q⌋ := Int.floor_nonneg.mpr h
  split_ifs <;> omega

theorem pyRound3_nonneg {q : ℚ} (h : 0 ≤ q) : 0 ≤ pyRound3 q := by
  unfold pyRound3
  have h1 : (0 : ℤ) ≤ rndHalfEven (q * 1000) :=
    rndHalfEven_nonneg (by positivity)
  have h2 : (0 : ℚ) ≤ (rndHalfEven (q * 1000) : ℚ) := by exact_mod_cast h1
  positivity

/-- Claim C3: over records whose citation and reference counts are each a
non-negative integer or missing (null), the flattened ratio equals
`round(cited / max(ref, 1), 3)`, is non-negative, equals
`round(cited / ref, 3)` when `ref > 0` and `round(cited, 3)` otherwise. -/
theorem claim3_citation_per_reference {w : J} {flat : Enhanced} {c r : ℤ}
    (h : enhance w = .ok flat)
    (hc : getVal w "cited_by_count" = J.int c ∨
          (getVal w "cited_by_count" = J.null ∧ c = 0))
    (hr : getVal w "referenced_works_count" = J.int r ∨
          (getVal w "referenced_works_count" = J.null ∧ r = 0))
    (hc0 : 0 ≤ c) (hr0 : 0 ≤ r) :
    flat.citation_per_reference = pyRound3 ((c : ℚ) / ((max r 1 : ℤ) : ℚ)) ∧
    0 ≤ flat.citation_per_reference ∧
    (0 < r → flat.citation_per_reference = pyRound3 ((c : ℚ) / (r : ℚ))) ∧
    (r = 0 → flat.citation_per_reference = pyRound3 (c : ℚ)) := by
  obtain ⟨kvs, ai, fR, dR, kR, fs, ds, ks, cpr, jr, rt, hw, _, _, _, _, _,
    _, _, hcpr, _, _, hflat⟩ := enhance_ok_parts h
  have hstep : ratioStep (getVal w "cited_by_count")
      (getVal w "referenced_works_count") =
      .ok (pyRound3 ((c : ℚ) / ((max r 1 : ℤ) : ℚ))) := by
    have hcq : pyNumQ (if pyTruthy (getVal w "cited_by_count") then
        getVal w "cited_by_count" else .int 0) = .ok (c : ℚ) := by
      rcases hc with hc | ⟨hc, hc2⟩
      · rw [hc]
        by_cases h0 : c = 0
        · subst h0; simp [pyTruthy, pyNumQ]
        · simp [pyTruthy, pyNumQ, h0]
      · rw [hc, hc2]; simp [pyTruthy, pyNumQ]
    have hrq : pyNumQ (if pyTruthy (getVal w "referenced_works_count") then
        getVal w "referenced_works_count" else .int 1) =
        .ok (((max r 1 : ℤ) : ℚ)) := by
      rcases hr with hr | ⟨hr, hr2⟩
      · rw [hr]
        by_cases h0 : r = 0
        · subst h0; simp [pyTruthy, pyNumQ]
        · have : max r 1 = r := max_eq_left (by omega)
          simp [pyTruthy, pyNumQ, h0, this]
      · rw [hr, hr2]; simp [pyTruthy, pyNumQ]
    unfold ratioStep
    rw [hcq, eok_bind, hrq, eok_bind]
    rfl
  rw [hstep] at hcpr
  injection hcpr with hcpr2
  subst hflat
  refine ⟨hcpr2.symm, ?_, ?_, ?_⟩
  · rw [hcpr2.symm]
    refine pyRound3_nonneg (div_nonneg (by exact_mod_cast hc0) ?_)
    have : (0 : ℤ) ≤ max r 1 := by omega
    exact_mod_cast this
  · intro hrpos
    rw [hcpr2.symm]
    have : max r 1 = r := max_eq_left (by omega)
    rw [this]
  · intro hr0eq
    rw [hcpr2.symm, hr0eq]
    norm_num

/-- Witness for claim C3 at a record with 7 citations and 3 references. -/
theorem claim3_witness :
    (flatOf wC3ex).citation_per_reference =
        pyRound3 ((7 : ℚ) / ((max (3 : ℤ) 1 : ℤ) : ℚ)) ∧
      0 ≤ (flatOf wC3ex).citation_per_reference ∧
      ((0 : ℤ) < 3 → (flatOf wC3ex).citation_per_reference =
        pyRound3 ((7 : ℚ) / ((3 : ℤ) : ℚ))) ∧
      ((3 : ℤ) = 0 → (flatOf wC3ex).citation_per_reference =
        pyRound3 (((7 : ℤ) : ℚ))) :=
  @claim3_citation_per_reference wC3ex (flatOf wC3ex) 7 3 rfl
    (Or.inl rfl) (Or.inl rfl) (by decide) (by decide)

theorem asStrs_map_str (ss : List String) : asStrs (ss.map J.str) = some ss := by
  induction ss with
  | nil => rfl
  | cons s t ih =>
    show (asStrs (t.map J.str)).map (fun ts => s :: ts) = some (s :: t)
    rw [ih]
    rfl

theorem pyJoin_map_str (sep : String) (ss : List String) :
    pyJoin sep (ss.map J.str) = .ok (String.intercalate sep ss) := by
  simp [pyJoin, asStrs_map_str]

/-- The part built from a string list joins to the comma-joined string. -/
theorem joinPart (ss : List String) :
    (if (ss.map J.str).isEmpty then pure "" else pyJoin ", " (ss.map J.str)) =
      (.ok (String.intercalate ", " ss) : Except PyErr String) := by
  cases ss with
  | nil => rfl
  | cons s t => exact pyJoin_map_str ", " (s :: t)

theorem pyTruthy_str (s : String) : pyTruthy (J.str s) = nonEmptyStr s := rfl

theorem filter_truthy_map_str (l : List String) :
    (l.map J.str).filter pyTruthy =
      (l.filter nonEmptyStr).map J.str := by
  induction l with
  | nil => rfl
  | cons s t ih =>
    simp only [List.map_cons, List.filter_cons, pyTruthy_str]
    by_cases h : nonEmptyStr s = true
    · simp [h, ih]
    · simp [h, ih]

/-- Analysis of the final pipe-join: the title contributes its string
content when truthy, nothing otherwise; truthy non-strings raise. -/
theorem title_part {t : J} {l : List String} {out : String}
    (h : pyJoin " | " ((t :: l.map J.str).filter pyTruthy) = .ok out) :
    out = String.intercalate " | "
      ((pyStrOrEmpty t :: l).filter nonEmptyStr) := by
  rw [List.filter_cons] at h
  rw [List.filter_cons]
  by_cases ht : pyTruthy t = true
  · cases t with
    | str s =>
      rw [ht] at h
      simp only [if_true] at h
      rw [filter_truthy_map_str] at h
      have h2 : pyJoin " | " ((s :: l.filter nonEmptyStr).map J.str) =
          .ok out := h
      rw [pyJoin_map_str] at h2
      injection h2 with h3
      have hs : pyStrOrEmpty (J.str s) = s := rfl
      have hsne2 : nonEmptyStr s = true := by
        rw [← pyTruthy_str]; exact ht
      simp only [hs, hsne2, if_true]
      exact h3.symm
    | null => simp [pyTruthy] at ht
    | bool b =>
      exfalso
      rw [ht] at h
      simp only [if_true] at h
      simp [pyJoin, asStrs] at h
    | int n =>
      exfalso
      rw [ht] at h
      simp only [if_true] at h
      simp [pyJoin, asStrs] at h
    | arr xs =>
      exfalso
      rw [ht] at h
      simp only [if_true] at h
      simp [pyJoin, asStrs] at h
    | obj kvs =>
      exfalso
      rw [ht] at h
      simp only [if_true] at h
      simp [pyJoin, asStrs] at h
  · have ht2 : pyTruthy t = false := by
      cases hx : pyTruthy t
      · rfl
      · exact absurd hx ht
    rw [ht2] at h
    simp only [Bool.false_eq_true, if_false] at h
    rw [filter_truthy_map_str, pyJoin_map_str] at h
    injection h with h3
    have hse : pyStrOrEmpty t = "" := by
      cases t with
      | str s =>
        simp only [pyTruthy, nonEmptyStr] at ht2
        simp only [pyStrOrEmpty]
        simpa using ht2
      | null => rfl
      | bool b => rfl
      | int n => rfl
      | arr xs => rfl
      | obj kvs => rfl
    have hne : nonEmptyStr (pyStrOrEmpty t) = false := by
      rw [hse]; rfl
    simp only [hne, Bool.false_eq_true, if_false]
    exact h3.symm

/-- Claim C8: for every raw record, `research_topic` is the pipe-joined
concatenation of title, comma-joined fields, comma-joined domains and
comma-joined top keywords, skipping empty parts. -/
theorem claim8_research_topic {w : J} {flat : Enhanced}
    {fs ds ks : List String}
    (h : enhance w = .ok flat)
    (hfs : flat.fields = fs.map J.str)
    (hds : flat.domains = ds.map J.str)
    (hks : flat.top_keywords = ks.map J.str) :
    flat.research_topic =
      String.intercalate " | "
        (([pyStrOrEmpty flat.title,
           String.intercalate ", " fs,
           String.intercalate ", " ds,
           String.intercalate ", " ks]).filter nonEmptyStr) := by
  obtain ⟨kvs, ai, fR, dR, kR, fs0, ds0, ks0, cpr, jr, rt, hw, _, _, _, _, _,
    _, _, _, _, hrt, hflat⟩ := enhance_ok_parts h
  subst hflat
  simp only at hfs hds hks ⊢
  rw [hfs, hds, hks] at hrt
  unfold topicStep at hrt
  rw [joinPart fs, eok_bind, joinPart ds, eok_bind, joinPart ks,
    eok_bind] at hrt
  have h2 : pyJoin " | "
      ((getVal w "display_name" ::
        ([String.intercalate ", " fs, String.intercalate ", " ds,
          String.intercalate ", " ks]).map J.str).filter pyTruthy) =
      .ok rt := hrt
  exact title_part h2

/-- Witness for claim C8 at the record of the claim example: the result is
the string `T | A, B | x, y`. -/
theorem claim8_witness :
    (flatOf wC8ex).research_topic =
      String.intercalate " | "
        (([pyStrOrEmpty (flatOf wC8ex).title,
           String.intercalate ", " ["A", "B"],
           String.intercalate ", " ([] : List String),
           String.intercalate ", " ["x", "y"]]).filter nonEmptyStr) ∧
    (flatOf wC8ex).research_topic = "T | A, B | x, y" :=
  ⟨@claim8_research_topic wC8ex (flatOf wC8ex) ["A", "B"] [] ["x", "y"]
      rfl rfl rfl rfl, rfl⟩

theorem char_toNat_inj {a b : Char} (h : a.toNat = b.toNat) : a = b :=
  Char.eq_of_val_eq (UInt32.ext h)

theorem charListLt_asymm : ∀ (x y : List Char),
    charListLt x y = true → charListLt y x = false
  | [], [], h => by simp [charListLt] at h
  | [], _ :: _, _ => by simp [charListLt]
  | _ :: _, [], h => by simp [charListLt] at h
  | a :: as, b :: bs, h => by
    simp only [charListLt] at h ⊢
    by_cases hab : a = b
    · subst hab
      simp only [if_pos rfl] at h ⊢
      exact charListLt_asymm as bs h
    · have hba : ¬ b = a := fun e => hab e.symm
      simp only [if_neg hab] at h
      simp only [if_neg hba]
      simp only [decide_eq_true_eq] at h
      simp only [decide_eq_false_iff_not]
      omega

theorem charListLt_trans : ∀ (x y z : List Char),
    charListLt x y = true → charListLt y z = true → charListLt x z = true
  | [], [], _, h, _ => by simp [charListLt] at h
  | [], _ :: _, [], _, h => by simp [charListLt] at h
  | [], _ :: _, _ :: _, _, _ => by simp [charListLt]
  | _ :: _, [], _, h, _ => by simp [charListLt] at h
  | _ :: _, _ :: _, [], _, h => by simp [charListLt] at h
  | a :: as, b :: bs, c :: cs, h1, h2 => by
    simp only [charListLt] at h1 h2 ⊢
    by_cases hab : a = b
    · subst hab
      simp only [if_pos rfl] at h1
      by_cases hac : a = c
      · subst hac
        simp only [if_pos rfl] at h2 ⊢
        exact charListLt_trans as bs cs h1 h2
      · simp only [if_neg hac] at h2 ⊢
        exact h2
    · simp only [if_neg hab] at h1
      simp only [decide_eq_true_eq] at h1
      by_cases hbc : b = c
      · subst hbc
        have hac : ¬ a = b := hab
        simp only [if_neg hac]
        simp only [decide_eq_true_eq]
        exact h1
      · simp only [if_neg hbc] at h2
        simp only [decide_eq_true_eq] at h2
        have hac : ¬ a = c := by
          intro e
          subst e
          omega
        simp only [if_neg hac]
        simp only [decide_eq_true_eq]
        omega

theorem charListLt_connex : ∀ (x y : List Char), x ≠ y →
    charListLt x y = true ∨ charListLt y x = true
  | [], [], h => absurd rfl h
  | [], _ :: _, _ => Or.inl (by simp [charListLt])
  | _ :: _, [], _ => Or.inr (by simp [charListLt])
  | a :: as, b :: bs, h => by
    by_cases hab : a = b
    · subst hab
      have htail : as ≠ bs := by
        intro e; exact h (by rw [e])
      rcases charListLt_connex as bs htail with h1 | h1
      · exact Or.inl (by simp only [charListLt, if_pos rfl]; exact h1)
      · exact Or.inr (by simp only [charListLt, if_pos rfl]; exact h1)
    · have hba : ¬ b = a := fun e => hab e.symm
      have hn : a.toNat ≠ b.toNat := fun e => hab (char_toNat_inj e)
      rcases Nat.lt_or_ge a.toNat b.toNat with h1 | h1
      · exact Or.inl (by
          simp only [charListLt, if_neg hab, decide_eq_true_eq]; exact h1)
      · exact Or.inr (by
          simp only [charListLt, if_neg hba, decide_eq_true_eq]; omega)

theorem pyStrLe_total (a b : String) :
    pyStrLe a b = true ∨ pyStrLe b a = true := by
  unfold pyStrLe pyStrLt
  cases hx : charListLt b.data a.data
  · exact Or.inl rfl
  · have h2 := charListLt_asymm b.data a.data hx
    rw [h2]
    exact Or.inr rfl

theorem pyStrLe_trans (a b c : String) (h1 : pyStrLe a b = true)
    (h2 : pyStrLe b c = true) : pyStrLe a c = true := by
  unfold pyStrLe pyStrLt at h1 h2 ⊢
  rw [Bool.not_eq_true'] at h1 h2
  rw [Bool.not_eq_true']
  by_cases hcb : c.data = b.data
  · rw [hcb]; exact h1
  · cases hca : charListLt c.data a.data
    · rfl
    · exfalso
      rcases charListLt_connex c.data b.data hcb with h3 | h3
      · rw [h3] at h2; simp at h2
      · have h4 := charListLt_trans b.data c.data a.data h3 hca
        rw [h4] at h1
        simp at h1

theorem pyStrLt_of_le_ne {a b : String} (hle : pyStrLe a b = true)
    (hne : a ≠ b) : pyStrLt a b = true := by
  unfold pyStrLe pyStrLt at hle
  rw [Bool.not_eq_true'] at hle
  have hd : a.data ≠ b.data := fun e => hne (String.ext e)
  rcases charListLt_connex a.data b.data hd with h1 | h1
  · exact h1
  · rw [h1] at hle; simp at hle

theorem bInsert_perm {α : Type} (le : α → α → Bool) (x : α) (l : List α) :
    List.Perm (bInsert le x l) (x :: l) := by
  induction l with
  | nil => exact List.Perm.refl _
  | cons y ys ih =>
    unfold bInsert
    by_cases h : le x y = true
    · rw [if_pos h]
    · rw [if_neg h]
      exact List.Perm.trans (List.Perm.cons y ih) (List.Perm.swap x y ys)

theorem bSort_perm {α : Type} (le : α → α → Bool) (l : List α) :
    List.Perm (bSort le l) l := by
  induction l with
  | nil => exact List.Perm.refl _
  | cons x xs ih =>
    unfold bSort
    exact List.Perm.trans (bInsert_perm le x (bSort le xs))
      (List.Perm.cons x ih)

theorem bInsert_pairwise {α : Type} {le : α → α → Bool}
    (htot : ∀ a b, le a b = true ∨ le b a = true)
    (htrans : ∀ a b c, le a b = true → le b c = true → le a c = true)
    (x : α) {l : List α}
    (hl : l.Pairwise (fun a b => le a b = true)) :
    (bInsert le x l).Pairwise (fun a b => le a b = true) := by
  induction l with
  | nil => simp [bInsert]
  | cons y ys ih =>
    unfold bInsert
    rw [List.pairwise_cons] at hl
    by_cases h : le x y = true
    · rw [if_pos h]
      refine List.Pairwise.cons ?_ (List.Pairwise.cons hl.1 hl.2)
      intro z hz
      rcases List.mem_cons.mp hz with hz | hz
      · rw [hz]; exact h
      · exact htrans x y z h (hl.1 z hz)
    · rw [if_neg h]
      have hyx : le y x = true := (htot x y).resolve_left h
      refine List.Pairwise.cons ?_ (ih hl.2)
      intro z hz
      have hz2 : z ∈ x :: ys := (bInsert_perm le x ys).mem_iff.mp hz
      rcases List.mem_cons.mp hz2 with hz2 | hz2
      · rw [hz2]; exact hyx
      · exact hl.1 z hz2

theorem bSort_pairwise {α : Type} {le : α → α → Bool}
    (htot : ∀ a b, le a b = true ∨ le b a = true)
    (htrans : ∀ a b c, le a b = true → le b c = true → le a c = true)
    (l : List α) :
    (bSort le l).Pairwise (fun a b => le a b = true) := by
  induction l with
  | nil => simp [bSort]
  | cons x xs ih =>
    unfold bSort
    exact bInsert_pairwise htot htrans x ih

theorem pyInsert_sub {s : List J} {x y : J} (h : y ∈ pyInsert s x) :
    y ∈ s ∨ y = x := by
  unfold pyInsert at h
  split at h
  · exact Or.inl h
  · rcases List.mem_append.mp h with h2 | h2
    · exact Or.inl h2
    · exact Or.inr (List.mem_singleton.mp h2)

theorem pyDedup_sub_aux : ∀ (xs acc : List J) (y : J),
    y ∈ xs.foldl pyInsert acc → y ∈ acc ∨ y ∈ xs
  | [], acc, y, h => Or.inl h
  | x :: xs, acc, y, h => by
    rw [List.foldl_cons] at h
    rcases pyDedup_sub_aux xs (pyInsert acc x) y h with h2 | h2
    · rcases pyInsert_sub h2 with h3 | h3
      · exact Or.inl h3
      · exact Or.inr (by rw [h3]; exact List.mem_cons_self x xs)
    · exact Or.inr (List.mem_cons_of_mem x h2)

theorem pyDedup_sub {xs : List J} {y : J} (h : y ∈ pyDedup xs) : y ∈ xs :=
  (pyDedup_sub_aux xs [] y h).resolve_left (by simp)

theorem pyInsert_pairwise {s : List J} {x : J}
    (h : s.Pairwise (fun a b => pyEq a b = false)) :
    (pyInsert s x).Pairwise (fun a b => pyEq a b = false) := by
  unfold pyInsert
  by_cases hc : s.any (fun y => pyEq y x) = true
  · rw [if_pos hc]; exact h
  · rw [if_neg hc]
    rw [List.any_eq_true] at hc
    push_neg at hc
    rw [List.pairwise_append]
    refine ⟨h, List.pairwise_singleton _ _, ?_⟩
    intro a ha b hb
    rw [List.mem_singleton.mp hb]
    cases he : pyEq a x
    · rfl
    · exact absurd he (by simpa using hc a ha)

theorem pyDedup_pairwise_aux : ∀ (xs acc : List J),
    acc.Pairwise (fun a b => pyEq a b = false) →
    (xs.foldl pyInsert acc).Pairwise (fun a b => pyEq a b = false)
  | [], acc, h => h
  | x :: xs, acc, h => by
    rw [List.foldl_cons]
    exact pyDedup_pairwise_aux xs (pyInsert acc x) (pyInsert_pairwise h)

theorem pyDedup_pairwise (xs : List J) :
    (pyDedup xs).Pairwise (fun a b => pyEq a b = false) :=
  pyDedup_pairwise_aux xs [] (List.Pairwise.nil)

theorem asStrs_eq_some : ∀ {l : List J} {ss : List String},
    asStrs l = some ss → l = ss.map J.str := by
  intro l
  induction l with
  | nil =>
    intro ss h
    simp only [asStrs] at h
    injection h with h2
    rw [← h2]
    rfl
  | cons x t ih =>
    intro ss h
    cases x with
    | str s =>
      simp only [asStrs] at h
      rcases Option.map_eq_some'.mp h with ⟨ts, hts, hss⟩
      rw [← hss, List.map_cons]
      rw [ih hts]
    | null => simp [asStrs] at h
    | bool b => simp [asStrs] at h
    | int n => simp [asStrs] at h
    | arr xs => simp [asStrs] at h
    | obj kvs => simp [asStrs] at h

theorem asStrs_of_strs : ∀ {l : List J},
    (∀ x ∈ l, ∃ s, x = J.str s) → ∃ ss, asStrs l = some ss ∧ l = ss.map J.str
  | [], _ => ⟨[], rfl, rfl⟩
  | x :: t, h => by
    obtain ⟨s, hs⟩ := h x (List.mem_cons_self x t)
    subst hs
    obtain ⟨ts, hts, htl⟩ :=
      asStrs_of_strs (fun y hy => h y (List.mem_cons_of_mem _ hy))
    refine ⟨s :: ts, ?_, by rw [List.map_cons, ← htl]⟩
    simp only [asStrs, hts]
    rfl

/-- The sorted deduplicated list, read as strings, is strictly ascending in
the code-point order. -/
theorem sortAfterDedup_sorted {d l : List J} {ss : List String}
    (hd : d.Pairwise (fun a b => pyEq a b = false))
    (h : sortAfterDedup d = .ok l) (hs : asStrs l = some ss) :
    ss.Pairwise (fun a b => pyStrLt a b = true) := by
  unfold sortAfterDedup at h
  split at h
  case isTrue hlen =>
    injection h with h2
    subst h2
    have hl : d = ss.map J.str := asStrs_eq_some hs
    rw [hl, List.length_map] at hlen
    cases ss with
    | nil => exact List.Pairwise.nil
    | cons a t =>
      cases t with
      | nil => exact List.pairwise_singleton _ _
      | cons b t2 => simp at hlen
  case isFalse hlen =>
    split at h
    case h_1 ss0 hss0 =>
      injection h with h2
      subst h2
      rw [asStrs_map_str] at hs
      injection hs with hs2
      subst hs2
      have hd2 : d = ss0.map J.str := asStrs_eq_some hss0
      have hnd : ss0.Pairwise (fun a b : String => a ≠ b) := by
        rw [hd2, List.pairwise_map] at hd
        refine hd.imp ?_
        intro a b hab
        intro he
        subst he
        simp [pyEq] at hab
      have hle := bSort_pairwise pyStrLe_total pyStrLe_trans ss0
      have hnd2 : (bSort pyStrLe ss0).Pairwise (fun a b : String => a ≠ b) :=
        ((bSort_perm pyStrLe ss0).nodup_iff).mpr hnd
      exact (hle.and hnd2).imp (fun hab => pyStrLt_of_le_ne hab.1 hab.2)
    case h_2 hnone =>
      split at h
      case isTrue hall =>
        exfalso
        injection h with h2
        subst h2
        have hlen2 : (bSort (fun a b => decide (numVal a ≤ numVal b)) d).length
            = d.length := (bSort_perm _ d).length_eq
        have hl2 := asStrs_eq_some hs
        cases hss : ss with
        | nil =>
          subst hss
          rw [hl2] at hlen2
          simp at hlen2
          rw [← hlen2] at hlen
          simp at hlen
        | cons s t =>
          subst hss
          have hmem : J.str s ∈ bSort (fun a b => decide (numVal a ≤ numVal b)) d := by
            rw [hl2]
            exact List.mem_cons_self _ _
          have hmem2 : J.str s ∈ d :=
            ((bSort_perm _ d).mem_iff).mp hmem
          have := List.all_eq_true.mp hall _ hmem2
          simp [isNum] at this
      case isFalse => exact absurd h (by simp)

theorem pySortedSet_sorted {xs l : List J} {ss : List String}
    (h : pySortedSet xs = .ok l) (hs : asStrs l = some ss) :
    ss.Pairwise (fun a b => pyStrLt a b = true) := by
  unfold pySortedSet at h
  split at h
  · exact absurd h (by simp)
  · exact sortAfterDedup_sorted (pyDedup_pairwise xs) h hs

/-- If the first five entries of a sorted-set result are all strings and
the result is nonempty only with strings, the whole result is strings. -/
theorem sortAfterDedup_take_strs {d l : List J} {ss5 : List String}
    (h : sortAfterDedup d = .ok l) (h5 : asStrs (l.take 5) = some ss5) :
    ∃ ss, asStrs l = some ss := by
  unfold sortAfterDedup at h
  split at h
  case isTrue hlen =>
    injection h with h2
    subst h2
    have : d.take 5 = d := List.take_of_length_le (by omega)
    rw [this] at h5
    exact ⟨ss5, h5⟩
  case isFalse hlen =>
    split at h
    case h_1 ss0 hss0 =>
      injection h with h2
      subst h2
      exact ⟨bSort pyStrLe ss0, asStrs_map_str _⟩
    case h_2 hnone =>
      split at h
      case isTrue hall =>
        exfalso
        injection h with h2
        subst h2
        have hlen2 : (bSort (fun a b => decide (numVal a ≤ numVal b)) d).length
            = d.length := (bSort_perm _ d).length_eq
        cases hbs : bSort (fun a b => decide (numVal a ≤ numVal b)) d with
        | nil =>
          rw [hbs] at hlen2
          simp at hlen2
          rw [← hlen2] at hlen
          simp at hlen
        | cons a t =>
          have hmem : a ∈ d := by
            have : a ∈ bSort (fun a b => decide (numVal a ≤ numVal b)) d := by
              rw [hbs]; exact List.mem_cons_self _ _
            exact ((bSort_perm _ d).mem_iff).mp this
          have hnum := List.all_eq_true.mp hall _ hmem
          rw [hbs] at h5
          cases a with
          | int n => simp [asStrs] at h5
          | bool b => simp [asStrs] at h5
          | null => simp [isNum] at hnum
          | str s => simp [isNum] at hnum
          | arr xs => simp [isNum] at hnum
          | obj kvs => simp [isNum] at hnum
      case isFalse => exact absurd h (by simp)

theorem pySortedSet_take_strs {xs l : List J} {ss5 : List String}
    (h : pySortedSet xs = .ok l) (h5 : asStrs (l.take 5) = some ss5) :
    ∃ ss, asStrs l = some ss := by
  unfold pySortedSet at h
  split at h
  · exact absurd h (by simp)
  · exact sortAfterDedup_take_strs h h5

/-- One part of the research-topic synthesis succeeds only on a list of
strings. -/
theorem partStrs {l : List J} {sep p : String}
    (h : (if l.isEmpty then pure "" else pyJoin sep l) = .ok p) :
    ∃ ss, asStrs l = some ss := by
  split at h
  case isTrue he =>
    rw [List.isEmpty_iff.mp he]
    exact ⟨[], rfl⟩
  case isFalse =>
    unfold pyJoin at h
    split at h
    case h_1 ss hss => exact ⟨ss, hss⟩
    case h_2 => exact absurd h (by simp)

theorem topicStep_strs {t : J} {fs ds top : List J} {r : String}
    (h : topicStep t fs ds top = .ok r) :
    (∃ ss, asStrs fs = some ss) ∧ (∃ ss, asStrs ds = some ss) ∧
      (∃ ss, asStrs top = some ss) := by
  unfold topicStep at h
  rw [ebind_eq_ok] at h
  obtain ⟨p1, hp1, h⟩ := h
  rw [ebind_eq_ok] at h
  obtain ⟨p2, hp2, h⟩ := h
  rw [ebind_eq_ok] at h
  obtain ⟨p3, hp3, h⟩ := h
  exact ⟨partStrs hp1, partStrs hp2, partStrs hp3⟩

theorem exMapM_ok_length {ε α β : Type} {f : α → Except ε β} :
    ∀ {l : List α} {bs : List β}, exMapM f l = .ok bs → bs.length = l.length := by
  intro l
  induction l with
  | nil =>
    intro bs h
    injection h with h2
    rw [← h2]
    rfl
  | cons a t ih =>
    intro bs h
    unfold exMapM at h
    rw [ebind_eq_ok] at h
    obtain ⟨b, hb, h⟩ := h
    rw [ebind_eq_ok] at h
    obtain ⟨bs2, hbs2, h⟩ := h
    rw [epure_eq_ok] at h
    injection h with h2
    rw [← h2, List.length_cons, List.length_cons, ih hbs2]

/-- Claim C6: for every raw record, `fields`, `domains` and `keywords` are
duplicate-free and strictly ascending in the code-point (lexicographic)
string order; the keyword list is drawn from the concept display names, and
from the keyword entries exactly when the concepts collection is empty. -/
theorem claim6_sorted_lists {w : J} {flat : Enhanced}
    (h : enhance w = .ok flat) :
    (∃ fs : List String, flat.fields = fs.map J.str ∧
       fs.Pairwise (fun a b => pyStrLt a b = true)) ∧
    (∃ ds : List String, flat.domains = ds.map J.str ∧
       ds.Pairwise (fun a b => pyStrLt a b = true)) ∧
    (∃ ks : List String, flat.keywords = ks.map J.str ∧
       ks.Pairwise (fun a b => pyStrLt a b = true)) ∧
    (∃ cs cn : List J, pyIter (getValD w "concepts" (J.arr [])) = .ok cs ∧
       exMapM (fun k => pyGetD k "display_name" J.null) cs = .ok cn ∧
       (cs ≠ [] → pySortedSet cn = .ok flat.keywords) ∧
       (cs = [] → ∃ kl kn : List J,
          pyIter (getValD w "keywords" (J.arr [])) = .ok kl ∧
          exMapM (fun k => pyGetD k "keyword" J.null) kl = .ok kn ∧
          pySortedSet kn = .ok flat.keywords)) := by
  obtain ⟨kvs, ai, fR, dR, kR, fs0, ds0, ks0, cpr, jr, rt, hw, _, _, _, hkR,
    hf, hd, hk, _, _, hrt, hflat⟩ := enhance_ok_parts h
  subst hflat
  subst hw
  simp only
  obtain ⟨⟨ssf, hssf⟩, ⟨ssd, hssd⟩, ⟨sst, hsst⟩⟩ := topicStep_strs hrt
  obtain ⟨ssk, hssk⟩ := pySortedSet_take_strs hk hsst
  refine ⟨⟨ssf, asStrs_eq_some hssf, pySortedSet_sorted hf hssf⟩,
    ⟨ssd, asStrs_eq_some hssd, pySortedSet_sorted hd hssd⟩,
    ⟨ssk, asStrs_eq_some hssk, pySortedSet_sorted hk hssk⟩, ?_⟩
  unfold keywordsRawOf at hkR
  rw [ebind_eq_ok] at hkR
  obtain ⟨cn, hcn, hkR⟩ := hkR
  unfold conceptNamesOf at hcn
  simp only [pyGetD, eok_bind] at hcn
  rw [ebind_eq_ok] at hcn
  obtain ⟨cs, hcs, hcn⟩ := hcn
  refine ⟨cs, cn, hcs, hcn, ?_, ?_⟩
  · intro hcsne
    have hcnne : cn.isEmpty = false := by
      have hlen := exMapM_ok_length hcn
      cases hcne : cn with
      | nil =>
        exfalso
        rw [hcne] at hlen
        simp at hlen
        exact hcsne (List.eq_nil_of_length_eq_zero hlen.symm)
      | cons a t => rfl
    rw [hcnne] at hkR
    simp only [Bool.false_eq_true, if_false] at hkR
    rw [epure_eq_ok] at hkR
    injection hkR with hkR2
    rw [hkR2]
    exact hk
  · intro hcseq
    subst hcseq
    have hcne : cn = [] := by
      have hlen := exMapM_ok_length hcn
      simp at hlen
      exact hlen
    subst hcne
    simp only [List.isEmpty_nil, if_true] at hkR
    unfold kwNamesOf at hkR
    simp only [pyGetD, eok_bind] at hkR
    rw [ebind_eq_ok] at hkR
    obtain ⟨kl, hkl, hkR⟩ := hkR
    exact ⟨kl, kR, hkl, hkR, hk⟩

/-- Witness for claim C6 at a record with duplicated, unordered topic
fields and concepts; the three lists evaluate sorted and deduplicated. -/
theorem claim6_witness :
    ((∃ fs : List String, (flatOf wC6ex).fields = fs.map J.str ∧
        fs.Pairwise (fun a b => pyStrLt a b = true)) ∧
      (∃ ds : List String, (flatOf wC6ex).domains = ds.map J.str ∧
        ds.Pairwise (fun a b => pyStrLt a b = true)) ∧
      (∃ ks : List String, (flatOf wC6ex).keywords = ks.map J.str ∧
        ks.Pairwise (fun a b => pyStrLt a b = true)) ∧
      (∃ cs cn : List J,
        pyIter (getValD wC6ex "concepts" (J.arr [])) = .ok cs ∧
        exMapM (fun k => pyGetD k "display_name" J.null) cs = .ok cn ∧
        (cs ≠ [] → pySortedSet cn = .ok (flatOf wC6ex).keywords) ∧
        (cs = [] → ∃ kl kn : List J,
          pyIter (getValD wC6ex "keywords" (J.arr [])) = .ok kl ∧
          exMapM (fun k => pyGetD k "keyword" J.null) kl = .ok kn ∧
          pySortedSet kn = .ok (flatOf wC6ex).keywords))) ∧
    (flatOf wC6ex).fields = [J.str "A", J.str "B"] ∧
    (flatOf wC6ex).domains = [J.str "D"] ∧
    (flatOf wC6ex).keywords = [J.str "a", J.str "z"] :=
  ⟨@claim6_sorted_lists wC6ex (flatOf wC6ex) rfl, rfl, rfl, rfl⟩

theorem pyIndex_of_truthy {kvs : List (String × J)} {k : String}
    (h : pyTruthy ((kvs.lookup k).getD J.null) = true) :
    pyIndex (J.obj kvs) k = .ok ((kvs.lookup k).getD J.null) := by
  have hred : pyIndex (J.obj kvs) k =
      (match kvs.lookup k with
       | some x => Except.ok x
       | none => Except.error PyErr.keyError) := rfl
  rw [hred]
  cases hl : kvs.lookup k with
  | none =>
    exfalso
    rw [hl] at h
    simp [pyTruthy] at h
  | some x => rfl

/-- What the journal step produces: nothing, with the code condition false,
or the projection of a non-empty source dict, with the condition true. -/
theorem journalOf_cases {kvs : List (String × J)} {jr : Option Journal}
    (h : journalOf (J.obj kvs) = .ok jr) :
    (jr = none ∧ exposesJournal (J.obj kvs) = false) ∨
    (∃ p s, getVal (J.obj kvs) "primary_location" = J.obj p ∧
      (p.lookup "source").getD J.null = J.obj s ∧ s ≠ [] ∧ p ≠ [] ∧
      jr = some ⟨getVal (J.obj s) "display_name", getVal (J.obj s) "type",
        getVal (J.obj s) "issn", getVal (J.obj s) "is_oa"⟩ ∧
      exposesJournal (J.obj kvs) = true) := by
  unfold journalOf at h
  simp only [pyGet, pyGetD, eok_bind] at h
  by_cases hpl : pyTruthy ((kvs.lookup "primary_location").getD J.null) = true
  · rw [if_pos hpl] at h
    rw [pyIndex_of_truthy hpl, eok_bind] at h
    cases hplv : (kvs.lookup "primary_location").getD J.null with
    | obj p =>
      rw [hplv] at h
      simp only [pyGetD, eok_bind] at h
      rw [hplv] at hpl
      have hpne : p ≠ [] := by
        intro he
        subst he
        simp [pyTruthy] at hpl
      by_cases hsrc : pyTruthy ((p.lookup "source").getD J.null) = true
      · rw [if_pos hsrc] at h
        rw [pyIndex_of_truthy hsrc, eok_bind] at h
        cases hsv : (p.lookup "source").getD J.null with
        | obj s =>
          rw [hsv] at h
          simp only [pyGetD, eok_bind, epure_eq_ok] at h
          injection h with h2
          rw [hsv] at hsrc
          have hsne : s ≠ [] := by
            intro he
            subst he
            simp [pyTruthy] at hsrc
          refine Or.inr ⟨p, s, ?_, hsv, hsne, hpne, h2.symm, ?_⟩
          · show (kvs.lookup "primary_location").getD J.null = J.obj p
            exact hplv
          · unfold exposesJournal
            simp only [getVal, getValD, hplv, hsv]
            have hp2 : p.isEmpty = false := by
              cases hpe : p.isEmpty
              · rfl
              · exact absurd (List.isEmpty_iff.mp hpe) hpne
            have hs2 : s.isEmpty = false := by
              cases hse : s.isEmpty
              · rfl
              · exact absurd (List.isEmpty_iff.mp hse) hsne
            simp [hp2, hs2]
        | null =>
          rw [hsv] at hsrc
          simp [pyTruthy] at hsrc
        | bool b =>
          rw [hsv] at h
          simp [pyGetD] at h
        | int n =>
          rw [hsv] at h
          simp [pyGetD] at h
        | str s =>
          rw [hsv] at h
          simp [pyGetD] at h
        | arr xs =>
          rw [hsv] at h
          simp [pyGetD] at h
      · rw [if_neg hsrc] at h
        rw [epure_eq_ok] at h
        injection h with h2
        refine Or.inl ⟨h2.symm, ?_⟩
        unfold exposesJournal
        simp only [getVal, getValD, hplv]
        cases hsv : (p.lookup "source").getD J.null with
        | obj s =>
          rw [hsv] at hsrc
          have : s.isEmpty = true := by
            cases hse : s.isEmpty
            · exfalso
              apply hsrc
              simp [pyTruthy, hse]
            · rfl
          simp [this]
        | null => simp
        | bool b => simp
        | int n => simp
        | str s => simp
        | arr xs => simp
    | null =>
      rw [hplv] at hpl
      simp [pyTruthy] at hpl
    | bool b =>
      rw [hplv] at h
      simp [pyGetD] at h
    | int n =>
      rw [hplv] at h
      simp [pyGetD] at h
    | str s =>
      rw [hplv] at h
      simp [pyGetD] at h
    | arr xs =>
      rw [hplv] at h
      simp [pyGetD] at h
  · rw [if_neg hpl] at h
    rw [epure_eq_ok] at h
    injection h with h2
    refine Or.inl ⟨h2.symm, ?_⟩
    unfold exposesJournal
    simp only [getVal, getValD]
    cases hplv : (kvs.lookup "primary_location").getD J.null with
    | obj p =>
      rw [hplv] at hpl
      have : p.isEmpty = true := by
        cases hpe : p.isEmpty
        · exact absurd (by simp [pyTruthy, hpe]) hpl
        · rfl
      simp [this]
    | null => simp
    | bool b => simp
    | int n => simp
    | str s => simp
    | arr xs => simp

/-- Counterexample to claim C9 as stated: the record
`{"primary_location": {"source": {}}}` exposes a primary location with a
source object, yet the flattener succeeds with no journal key. -/
theorem claim9_counterexample :
    enhance wC9cex = .ok (flatOf wC9cex) ∧
    specExposes wC9cex = true ∧
    (flatOf wC9cex).journal = none :=
  ⟨rfl, rfl, rfl⟩

/-- Claim C9 as amended: the journal object is present exactly when the
record has a non-empty `primary_location` dict with a non-empty `source`
dict, and then carries the display name, type, ISSN and open-access flag of
that source; otherwise the key is absent. -/
theorem claim9_amended {w : J} {flat : Enhanced} (h : enhance w = .ok flat) :
    flat.journal.isSome = exposesJournal w ∧
    (∀ p s, getVal w "primary_location" = J.obj p →
      (p.lookup "source").getD J.null = J.obj s → s ≠ [] →
      flat.journal = some ⟨getVal (J.obj s) "display_name",
        getVal (J.obj s) "type", getVal (J.obj s) "issn",
        getVal (J.obj s) "is_oa"⟩) := by
  obtain ⟨kvs, ai, fR, dR, kR, fs0, ds0, ks0, cpr, jr, rt, hw, _, _, _, _, _,
    _, _, _, hj, _, hflat⟩ := enhance_ok_parts h
  subst hflat
  subst hw
  simp only
  rcases journalOf_cases hj with ⟨hjr, hexp⟩ | ⟨p, s, hp, hs, hsne, hpne,
    hjr, hexp⟩
  · subst hjr
    refine ⟨by rw [hexp]; rfl, ?_⟩
    intro p s hp hs hsne
    exfalso
    unfold exposesJournal at hexp
    rw [hp] at hexp
    have hlk : p.lookup "source" = some (J.obj s) := by
      cases hlk2 : p.lookup "source" with
      | none =>
        rw [hlk2] at hs
        exact absurd hs (by simp)
      | some x =>
        rw [hlk2] at hs
        simp at hs
        rw [hs]
    have hpne2 : p ≠ [] := by
      intro he
      subst he
      simp [List.lookup] at hlk
    have hp2 : p.isEmpty = false := by
      cases hpe : p.isEmpty
      · rfl
      · exact absurd (List.isEmpty_iff.mp hpe) hpne2
    have hs2 : s.isEmpty = false := by
      cases hse : s.isEmpty
      · rfl
      · exact absurd (List.isEmpty_iff.mp hse) hsne
    simp [hlk, hp2, hs2] at hexp
  · subst hjr
    refine ⟨by rw [hexp]; rfl, ?_⟩
    intro p2 s2 hp2 hs2 hsne2
    rw [hp] at hp2
    injection hp2 with hp3
    subst hp3
    rw [hs] at hs2
    injection hs2 with hs3
    subst hs3
    rfl

/-- Witness for the amended claim C9 at a record whose primary location
carries a non-empty source dict: the journal is present. -/
theorem claim9_witness :
    ((flatOf wWFex).journal.isSome = exposesJournal wWFex ∧
      (∀ p s, getVal wWFex "primary_location" = J.obj p →
        (p.lookup "source").getD J.null = J.obj s → s ≠ [] →
        (flatOf wWFex).journal = some ⟨getVal (J.obj s) "display_name",
          getVal (J.obj s) "type", getVal (J.obj s) "issn",
          getVal (J.obj s) "is_oa"⟩)) ∧
    (flatOf wWFex).journal.isSome = true :=
  ⟨@claim9_amended wWFex (flatOf wWFex) rfl, rfl⟩

theorem exMapM_ok_prop {ε α β : Type} {f : α → Except ε β} {P : β → Prop} :
    ∀ {l : List α}, (∀ a ∈ l, ∃ b, f a = .ok b ∧ P b) →
      ∃ bs, exMapM f l = .ok bs ∧ (∀ b ∈ bs, P b) ∧ bs.length = l.length
  | [], _ => ⟨[], rfl, by simp, rfl⟩
  | a :: t, h => by
    obtain ⟨b, hb, hPb⟩ := h a (List.mem_cons_self a t)
    obtain ⟨bs, hbs, hPs, hlen⟩ :=
      exMapM_ok_prop (fun x hx => h x (List.mem_cons_of_mem _ hx))
    refine ⟨b :: bs, ?_, ?_, by simp [hlen]⟩
    · unfold exMapM
      rw [hb, eok_bind, hbs, eok_bind]
      rfl
    · intro x hx
      rcases List.mem_cons.mp hx with h2 | h2
      · rw [h2]; exact hPb
      · exact hPs x h2

theorem foldlM_ok_inv {ε γ α : Type} {f : γ → α → Except ε γ} {P : γ → Prop} :
    ∀ {l : List α}, (∀ a ∈ l, ∀ c, P c → ∃ c2, f c a = .ok c2 ∧ P c2) →
      ∀ c0, P c0 → ∃ c, List.foldlM f c0 l = .ok c ∧ P c
  | [], _, c0, h0 => ⟨c0, by rw [List.foldlM_nil]; rfl, h0⟩
  | a :: t, h, c0, h0 => by
    obtain ⟨c1, hc1, hP1⟩ := h a (List.mem_cons_self a t) c0 h0
    obtain ⟨c, hc, hP⟩ :=
      foldlM_ok_inv (fun x hx => h x (List.mem_cons_of_mem _ hx)) c1 hP1
    refine ⟨c, ?_, hP⟩
    rw [List.foldlM_cons, hc1, eok_bind, hc]

theorem projInst_ok {i : J} (hi : WFinst i = true) :
    ∃ r, projInst i = .ok r := by
  cases i with
  | obj ikvs =>
    refine ⟨⟨(ikvs.lookup "id").getD J.null,
      (ikvs.lookup "display_name").getD J.null,
      (ikvs.lookup "country").getD J.null,
      (ikvs.lookup "type").getD J.null⟩, rfl⟩
  | null => simp [WFinst] at hi
  | bool b => simp [WFinst] at hi
  | int n => simp [WFinst] at hi
  | str s => simp [WFinst] at hi
  | arr xs => simp [WFinst] at hi

theorem projAuthor_ok {a : J} (ha : WFauth a = true) :
    ∃ r, projAuthor a = .ok r := by
  cases a with
  | obj akvs =>
    rw [WFauth, Bool.and_eq_true] at ha
    obtain ⟨ha1, ha2⟩ := ha
    simp only [getValD] at ha1 ha2
    unfold projAuthor
    simp only [pyGetD, eok_bind]
    cases hau : (akvs.lookup "author").getD (J.obj []) with
    | obj aukvs =>
      simp only [eok_bind]
      cases hin : (akvs.lookup "institutions").getD (J.arr []) with
      | arr il =>
        simp only [pyIter, eok_bind]
        rw [hin] at ha2
        rw [isArrAll, List.all_eq_true] at ha2
        have hmm : ∀ i ∈ il, ∃ r, projInst i = .ok r ∧ True :=
          fun i hi => ⟨(projInst_ok (ha2 i hi)).choose,
            (projInst_ok (ha2 i hi)).choose_spec, trivial⟩
        obtain ⟨irecs, hirecs, _⟩ := exMapM_ok_prop hmm
        rw [hirecs, eok_bind]
        exact ⟨_, rfl⟩
      | null => rw [hin] at ha2; simp [isArrAll] at ha2
      | bool b => rw [hin] at ha2; simp [isArrAll] at ha2
      | int n => rw [hin] at ha2; simp [isArrAll] at ha2
      | str s => rw [hin] at ha2; simp [isArrAll] at ha2
      | obj kvs2 => rw [hin] at ha2; simp [isArrAll] at ha2
    | null => rw [hau] at ha1; simp at ha1
    | bool b => rw [hau] at ha1; simp at ha1
    | int n => rw [hau] at ha1; simp at ha1
    | str s => rw [hau] at ha1; simp at ha1
    | arr xs => rw [hau] at ha1; simp at ha1
  | null => simp [WFauth] at ha
  | bool b => simp [WFauth] at ha
  | int n => simp [WFauth] at ha
  | str s => simp [WFauth] at ha
  | arr xs => simp [WFauth] at ha

theorem addInstNames_ok {a : J} (ha : WFauth a = true) (s : List J) :
    ∃ s2, addInstNames s a = .ok s2 := by
  cases a with
  | obj akvs =>
    rw [WFauth, Bool.and_eq_true] at ha
    obtain ⟨_, ha2⟩ := ha
    simp only [getValD] at ha2
    unfold addInstNames authInsts
    simp only [pyGetD, eok_bind]
    cases hin : (akvs.lookup "institutions").getD (J.arr []) with
    | arr il =>
      rw [hin] at ha2
      simp only [pyIter, eok_bind]
      rw [isArrAll, List.all_eq_true] at ha2
      have hbody : ∀ i ∈ il, ∀ acc : List J, True →
          ∃ acc2, (do
            let n ← pyGetD i "display_name" J.null
            if pyTruthy n then
              if pyHashable n then pure (pyInsert acc n)
              else throw PyErr.typeError
            else pure acc) = .ok acc2 ∧ True := by
        intro i hi acc _
        have hwf := ha2 i hi
        cases i with
        | obj ikvs =>
          simp only [pyGetD, eok_bind]
          rw [WFinst] at hwf
          cases hn : (ikvs.lookup "display_name").getD J.null with
          | null => exact ⟨acc, by simp [pyTruthy, epure_eq_ok], trivial⟩
          | str st =>
            by_cases hts : pyTruthy (J.str st) = true
            · rw [if_pos hts]
              exact ⟨pyInsert acc (J.str st),
                by simp [pyHashable, epure_eq_ok], trivial⟩
            · rw [if_neg hts]
              exact ⟨acc, rfl, trivial⟩
          | bool b =>
            simp only [getVal, getValD, hn, strOrNull] at hwf
            exact Bool.noConfusion hwf
          | int n =>
            simp only [getVal, getValD, hn, strOrNull] at hwf
            exact Bool.noConfusion hwf
          | arr xs =>
            simp only [getVal, getValD, hn, strOrNull] at hwf
            exact Bool.noConfusion hwf
          | obj kvs2 =>
            simp only [getVal, getValD, hn, strOrNull] at hwf
            exact Bool.noConfusion hwf
        | null => simp [WFinst] at hwf
        | bool b => simp [WFinst] at hwf
        | int n => simp [WFinst] at hwf
        | str st => simp [WFinst] at hwf
        | arr xs => simp [WFinst] at hwf
      obtain ⟨s2, hs2, _⟩ := foldlM_ok_inv hbody s trivial
      exact ⟨s2, hs2⟩
    | null => rw [hin] at ha2; simp [isArrAll] at ha2
    | bool b => rw [hin] at ha2; simp [isArrAll] at ha2
    | int n => rw [hin] at ha2; simp [isArrAll] at ha2
    | str st => rw [hin] at ha2; simp [isArrAll] at ha2
    | obj kvs2 => rw [hin] at ha2; simp [isArrAll] at ha2
  | null => simp [WFauth] at ha
  | bool b => simp [WFauth] at ha
  | int n => simp [WFauth] at ha
  | str st => simp [WFauth] at ha
  | arr xs => simp [WFauth] at ha

theorem authorsStep_ok {kvs : List (String × J)}
    (hA : isArrAll WFauth ((kvs.lookup "authorships").getD (J.arr []))
      = true) :
    ∃ ai, authorsStep (J.obj kvs) = .ok ai := by
  unfold authorsStep
  simp only [pyGetD, eok_bind]
  cases hv : (kvs.lookup "authorships").getD (J.arr []) with
  | arr al =>
    rw [hv] at hA
    rw [isArrAll, List.all_eq_true] at hA
    simp only [pyIter, eok_bind]
    have hbody : ∀ a ∈ al, ∀ acc : List AuthorRec × List J, True →
        ∃ acc2, (do
          let ar ← projAuthor a
          let s ← addInstNames acc.2 a
          pure (acc.1 ++ [ar], s)) = .ok acc2 ∧ True := by
      intro a haMem acc _
      obtain ⟨ar, har⟩ := projAuthor_ok (hA a haMem)
      obtain ⟨s2, hs2⟩ := addInstNames_ok (hA a haMem) acc.2
      exact ⟨(acc.1 ++ [ar], s2), by rw [har, eok_bind, hs2, eok_bind]; rfl,
        trivial⟩
    obtain ⟨ai, hai, _⟩ := foldlM_ok_inv hbody ([], []) trivial
    exact ⟨ai, hai⟩
  | null => rw [hv] at hA; simp [isArrAll] at hA
  | bool b => rw [hv] at hA; simp [isArrAll] at hA
  | int n => rw [hv] at hA; simp [isArrAll] at hA
  | str s => rw [hv] at hA; simp [isArrAll] at hA
  | obj kvs2 => rw [hv] at hA; simp [isArrAll] at hA

theorem WFfieldVal_truthy_obj {v : J} (h : WFfieldVal v = true)
    (htr : pyTruthy v = true) :
    ∃ fkvs, v = J.obj fkvs ∧
      ∃ s, (fkvs.lookup "display_name").getD J.null = J.str s := by
  cases v with
  | obj fkvs =>
    rw [WFfieldVal, if_pos htr] at h
    refine ⟨fkvs, rfl, ?_⟩
    simp only [getVal, getValD] at h
    cases hdn : (fkvs.lookup "display_name").getD J.null with
    | str s => exact ⟨s, rfl⟩
    | null => rw [hdn] at h; simp at h
    | bool b => rw [hdn] at h; simp at h
    | int n => rw [hdn] at h; simp at h
    | arr xs => rw [hdn] at h; simp at h
    | obj kvs2 => rw [hdn] at h; simp at h
  | null => simp [pyTruthy] at htr
  | bool b => simp [WFfieldVal, htr] at h
  | int n => simp [WFfieldVal, htr] at h
  | str s => simp [WFfieldVal, htr] at h
  | arr xs => simp [WFfieldVal, htr] at h

theorem topicVals_ok {kvs : List (String × J)} {key : String}
    (hT : isArrAll WFtopic ((kvs.lookup "topics").getD (J.arr [])) = true)
    (hkey : ∀ t, WFtopic t = true → WFfieldVal (getVal t key) = true) :
    ∃ l, topicVals (J.obj kvs) key = .ok l ∧ ∀ x ∈ l, ∃ s, x = J.str s := by
  unfold topicVals
  simp only [pyGetD, eok_bind]
  cases hv : (kvs.lookup "topics").getD (J.arr []) with
  | arr tl =>
    rw [hv] at hT
    rw [isArrAll, List.all_eq_true] at hT
    simp only [pyIter, eok_bind]
    have hbody : ∀ t ∈ tl, ∀ acc : List J, (∀ x ∈ acc, ∃ s, x = J.str s) →
        ∃ acc2, (do
          let fv ← pyGetD t key J.null
          if pyTruthy fv then do
            let fv2 ← pyIndex t key
            let dn ← pyGetD fv2 "display_name" J.null
            pure (acc ++ [dn])
          else pure acc) = .ok acc2 ∧ ∀ x ∈ acc2, ∃ s, x = J.str s := by
      intro t htMem acc hacc
      have hwt := hT t htMem
      have hfv := hkey t hwt
      cases t with
      | obj tkvs =>
        simp only [pyGetD, eok_bind]
        by_cases htr : pyTruthy ((tkvs.lookup key).getD J.null) = true
        · rw [if_pos htr, pyIndex_of_truthy htr, eok_bind]
          obtain ⟨fkvs, hfo, s, hdn⟩ := WFfieldVal_truthy_obj hfv htr
          have hfo2 : (tkvs.lookup key).getD J.null = J.obj fkvs := hfo
          rw [hfo2]
          simp only [pyGetD, eok_bind]
          rw [hdn]
          refine ⟨acc ++ [J.str s], by rw [epure_eq_ok], ?_⟩
          intro x hx
          rcases List.mem_append.mp hx with h2 | h2
          · exact hacc x h2
          · exact ⟨s, List.mem_singleton.mp h2⟩
        · rw [if_neg htr]
          exact ⟨acc, rfl, hacc⟩
      | null => simp [WFtopic] at hwt
      | bool b => simp [WFtopic] at hwt
      | int n => simp [WFtopic] at hwt
      | str s => simp [WFtopic] at hwt
      | arr xs => simp [WFtopic] at hwt
    obtain ⟨l, hl, hls⟩ := foldlM_ok_inv hbody [] (by simp)
    exact ⟨l, hl, hls⟩
  | null => rw [hv] at hT; simp [isArrAll] at hT
  | bool b => rw [hv] at hT; simp [isArrAll] at hT
  | int n => rw [hv] at hT; simp [isArrAll] at hT
  | str s => rw [hv] at hT; simp [isArrAll] at hT
  | obj kvs2 => rw [hv] at hT; simp [isArrAll] at hT

/-- Mapping a `get` of a string-valued key over well-shaped entry dicts
succeeds with a list of strings. -/
theorem namesMap_ok {cl : List J} {namekey : String}
    (h : ∀ c ∈ cl, ∃ ckvs, c = J.obj ckvs ∧
      ∃ s, (ckvs.lookup namekey).getD J.null = J.str s) :
    ∃ cn, exMapM (fun k => pyGetD k namekey J.null) cl = .ok cn ∧
      (∀ x ∈ cn, ∃ s, x = J.str s) ∧ cn.length = cl.length := by
  refine exMapM_ok_prop ?_
  intro c hc
  obtain ⟨ckvs, hck, s, hs⟩ := h c hc
  subst hck
  exact ⟨J.str s, by simp [pyGetD, hs], ⟨s, rfl⟩⟩

theorem keywordsRawOf_ok {kvs : List (String × J)}
    (hC : isArrAll WFconcept ((kvs.lookup "concepts").getD (J.arr []))
      = true)
    (hK : isArrAll WFkw ((kvs.lookup "keywords").getD (J.arr [])) = true) :
    ∃ kR, keywordsRawOf (J.obj kvs) = .ok kR ∧
      ∀ x ∈ kR, ∃ s, x = J.str s := by
  unfold keywordsRawOf conceptNamesOf
  simp only [pyGetD_obj, eok_bind]
  cases hv : (kvs.lookup "concepts").getD (J.arr []) with
  | arr cl =>
    rw [hv] at hC
    rw [isArrAll, List.all_eq_true] at hC
    simp only [pyIter_arr, eok_bind]
    have hcl : ∀ c ∈ cl, ∃ ckvs, c = J.obj ckvs ∧
        ∃ s, (ckvs.lookup "display_name").getD J.null = J.str s := by
      intro c hc
      have hw := hC c hc
      cases c with
      | obj ckvs =>
        refine ⟨ckvs, rfl, ?_⟩
        rw [WFconcept] at hw
        simp only [getVal, getValD] at hw
        cases hdn : (ckvs.lookup "display_name").getD J.null with
        | str s => exact ⟨s, rfl⟩
        | null => rw [hdn] at hw; simp at hw
        | bool b => rw [hdn] at hw; simp at hw
        | int n => rw [hdn] at hw; simp at hw
        | arr xs => rw [hdn] at hw; simp at hw
        | obj kvs2 => rw [hdn] at hw; simp at hw
      | null => simp [WFconcept] at hw
      | bool b => simp [WFconcept] at hw
      | int n => simp [WFconcept] at hw
      | str s => simp [WFconcept] at hw
      | arr xs => simp [WFconcept] at hw
    obtain ⟨cn, hcn, hcns, _⟩ := namesMap_ok hcl
    rw [hcn, eok_bind]
    by_cases hemp : cn.isEmpty = true
    · rw [if_pos hemp]
      unfold kwNamesOf
      simp only [pyGetD_obj, eok_bind]
      cases hv2 : (kvs.lookup "keywords").getD (J.arr []) with
      | arr kl =>
        rw [hv2] at hK
        rw [isArrAll, List.all_eq_true] at hK
        simp only [pyIter_arr, eok_bind]
        have hkl : ∀ c ∈ kl, ∃ ckvs, c = J.obj ckvs ∧
            ∃ s, (ckvs.lookup "keyword").getD J.null = J.str s := by
          intro c hc
          have hw := hK c hc
          cases c with
          | obj ckvs =>
            refine ⟨ckvs, rfl, ?_⟩
            rw [WFkw] at hw
            simp only [getVal, getValD] at hw
            cases hdn : (ckvs.lookup "keyword").getD J.null with
            | str s => exact ⟨s, rfl⟩
            | null => rw [hdn] at hw; simp at hw
            | bool b => rw [hdn] at hw; simp at hw
            | int n => rw [hdn] at hw; simp at hw
            | arr xs => rw [hdn] at hw; simp at hw
            | obj kvs2 => rw [hdn] at hw; simp at hw
          | null => simp [WFkw] at hw
          | bool b => simp [WFkw] at hw
          | int n => simp [WFkw] at hw
          | str s => simp [WFkw] at hw
          | arr xs => simp [WFkw] at hw
        obtain ⟨kn, hkn, hkns, _⟩ := namesMap_ok hkl
        exact ⟨kn, hkn, hkns⟩
      | null => rw [hv2] at hK; simp [isArrAll] at hK
      | bool b => rw [hv2] at hK; simp [isArrAll] at hK
      | int n => rw [hv2] at hK; simp [isArrAll] at hK
      | str s => rw [hv2] at hK; simp [isArrAll] at hK
      | obj kvs2 => rw [hv2] at hK; simp [isArrAll] at hK
    · rw [if_neg hemp]
      exact ⟨cn, rfl, hcns⟩
  | null => rw [hv] at hC; simp [isArrAll] at hC
  | bool b => rw [hv] at hC; simp [isArrAll] at hC
  | int n => rw [hv] at hC; simp [isArrAll] at hC
  | str s => rw [hv] at hC; simp [isArrAll] at hC
  | obj kvs2 => rw [hv] at hC; simp [isArrAll] at hC

theorem sortAfterDedup_ok_of_strs {d : List J}
    (h : ∀ x ∈ d, ∃ s, x = J.str s) :
    ∃ ss : List String, sortAfterDedup d = .ok (ss.map J.str) := by
  obtain ⟨ss0, hss0, hd⟩ := asStrs_of_strs h
  unfold sortAfterDedup
  split
  case isTrue hlen => exact ⟨ss0, by rw [hd]⟩
  case isFalse hlen =>
    rw [hss0]
    exact ⟨bSort pyStrLe ss0, rfl⟩

theorem pySortedSet_ok_of_strs {xs : List J}
    (h : ∀ x ∈ xs, ∃ s, x = J.str s) :
    ∃ ss : List String, pySortedSet xs = .ok (ss.map J.str) := by
  unfold pySortedSet
  have hhash : (xs.any fun x => !pyHashable x) = false := by
    rw [List.any_eq_false]
    intro x hx
    obtain ⟨s, rfl⟩ := h x hx
    simp [pyHashable]
  rw [hhash]
  simp only [Bool.false_eq_true, if_false]
  exact sortAfterDedup_ok_of_strs (fun x hx => h x (pyDedup_sub hx))

theorem ratioStep_ok {cited refc : J} (hc : intOrNull cited = true)
    (hr : intOrNull refc = true) : ∃ q, ratioStep cited refc = .ok q := by
  have h1 : ∃ q1, pyNumQ (if pyTruthy cited then cited else .int 0)
      = .ok q1 := by
    cases cited with
    | null => exact ⟨0, by simp [pyTruthy, pyNumQ]⟩
    | int n =>
      by_cases ht : pyTruthy (J.int n) = true
      · rw [if_pos ht]; exact ⟨(n : ℚ), rfl⟩
      · rw [if_neg ht]; exact ⟨0, by simp [pyNumQ]⟩
    | bool b => simp [intOrNull] at hc
    | str s => simp [intOrNull] at hc
    | arr xs => simp [intOrNull] at hc
    | obj kvs => simp [intOrNull] at hc
  have h2 : ∃ q2, pyNumQ (if pyTruthy refc then refc else .int 1)
      = .ok q2 := by
    cases refc with
    | null => exact ⟨1, by simp [pyTruthy, pyNumQ]⟩
    | int n =>
      by_cases ht : pyTruthy (J.int n) = true
      · rw [if_pos ht]; exact ⟨(n : ℚ), rfl⟩
      · rw [if_neg ht]; exact ⟨1, by simp [pyNumQ]⟩
    | bool b => simp [intOrNull] at hr
    | str s => simp [intOrNull] at hr
    | arr xs => simp [intOrNull] at hr
    | obj kvs => simp [intOrNull] at hr
  obtain ⟨q1, hq1⟩ := h1
  obtain ⟨q2, hq2⟩ := h2
  unfold ratioStep
  rw [hq1, eok_bind, hq2, eok_bind]
  exact ⟨pyRound3 (q1 / q2), rfl⟩

theorem journalOf_ok {kvs : List (String × J)}
    (hP : WFpl ((kvs.lookup "primary_location").getD J.null) = true) :
    ∃ jr, journalOf (J.obj kvs) = .ok jr := by
  unfold journalOf
  simp only [pyGet, pyGetD, eok_bind]
  by_cases hpl : pyTruthy ((kvs.lookup "primary_location").getD J.null)
      = true
  · rw [if_pos hpl, pyIndex_of_truthy hpl, eok_bind]
    cases hv : (kvs.lookup "primary_location").getD J.null with
    | obj p =>
      rw [hv] at hP
      rw [WFpl] at hP
      simp only [pyGetD, eok_bind]
      by_cases hsrc : pyTruthy ((p.lookup "source").getD J.null) = true
      · rw [if_pos hsrc, pyIndex_of_truthy hsrc, eok_bind]
        simp only [getVal, getValD] at hP
        cases hsv : (p.lookup "source").getD J.null with
        | obj sp =>
          simp only [pyGetD, eok_bind]
          exact ⟨_, rfl⟩
        | null => rw [hsv] at hsrc; simp [pyTruthy] at hsrc
        | bool b => rw [hsv] at hP; simp at hP
        | int n => rw [hsv] at hP; simp at hP
        | str s => rw [hsv] at hP; simp at hP
        | arr xs => rw [hsv] at hP; simp at hP
      · rw [if_neg hsrc]
        exact ⟨none, rfl⟩
    | null =>
      rw [hv] at hpl
      simp [pyTruthy] at hpl
    | bool b => rw [hv] at hP; simp [WFpl] at hP
    | int n => rw [hv] at hP; simp [WFpl] at hP
    | str s => rw [hv] at hP; simp [WFpl] at hP
    | arr xs => rw [hv] at hP; simp [WFpl] at hP
  · rw [if_neg hpl]
    exact ⟨none, rfl⟩

theorem pyJoin_ok_of_strs {xs : List J} {sep : String}
    (h : ∀ x ∈ xs, ∃ s, x = J.str s) : ∃ out, pyJoin sep xs = .ok out := by
  obtain ⟨ss, hss, _⟩ := asStrs_of_strs h
  exact ⟨String.intercalate sep ss, by rw [pyJoin, hss]⟩

theorem part_ok {l : List J} {sep : String}
    (h : ∀ x ∈ l, ∃ s, x = J.str s) :
    ∃ p, (if l.isEmpty then pure "" else pyJoin sep l) = .ok p := by
  split
  · exact ⟨"", rfl⟩
  · exact pyJoin_ok_of_strs h

theorem topicStep_ok {t : J} {fs ds top : List J}
    (ht : t = J.null ∨ ∃ s, t = J.str s)
    (hfs : ∀ x ∈ fs, ∃ s, x = J.str s)
    (hds : ∀ x ∈ ds, ∃ s, x = J.str s)
    (htop : ∀ x ∈ top, ∃ s, x = J.str s) :
    ∃ out, topicStep t fs ds top = .ok out := by
  obtain ⟨p1, hp1⟩ := @part_ok _ ", " hfs
  obtain ⟨p2, hp2⟩ := @part_ok _ ", " hds
  obtain ⟨p3, hp3⟩ := @part_ok _ ", " htop
  unfold topicStep
  rw [hp1, eok_bind, hp2, eok_bind, hp3, eok_bind]
  refine pyJoin_ok_of_strs ?_
  intro x hx
  have hx2 := List.mem_filter.mp hx
  rcases List.mem_cons.mp hx2.1 with h2 | h2
  · subst h2
    rcases ht with h3 | ⟨s, h3⟩
    · exfalso
      rw [h3] at hx2
      simp [pyTruthy] at hx2
    · exact ⟨s, h3⟩
  · rcases List.mem_cons.mp h2 with h3 | h3
    · exact ⟨p1, h3⟩
    · rcases List.mem_cons.mp h3 with h4 | h4
      · exact ⟨p2, h4⟩
      · rcases List.mem_cons.mp h4 with h5 | h5
        · exact ⟨p3, h5⟩
        · exact absurd h5 (List.not_mem_nil x)

theorem WFtopic_field {t : J} (h : WFtopic t = true) :
    WFfieldVal (getVal t "field") = true := by
  cases t with
  | obj tkvs =>
    rw [WFtopic, Bool.and_eq_true] at h
    exact h.1
  | null => simp [WFtopic] at h
  | bool b => simp [WFtopic] at h
  | int n => simp [WFtopic] at h
  | str s => simp [WFtopic] at h
  | arr xs => simp [WFtopic] at h

theorem WFtopic_domain {t : J} (h : WFtopic t = true) :
    WFfieldVal (getVal t "domain") = true := by
  cases t with
  | obj tkvs =>
    rw [WFtopic, Bool.and_eq_true] at h
    exact h.2
  | null => simp [WFtopic] at h
  | bool b => simp [WFtopic] at h
  | int n => simp [WFtopic] at h
  | str s => simp [WFtopic] at h
  | arr xs => simp [WFtopic] at h

/-- Counterexample to claim C2 as stated: the malformed record
`{"authorships": [5]}` makes `enhance_work_data` raise an AttributeError
(an authorship entry without a `get` method). -/
theorem claim2_counterexample :
    enhance wC2cex = .error .attributeError := rfl

/-- A well-shaped record never makes the flattener raise. -/
theorem enhance_WF_ok (w : J) (hwf : WF w = true) :
    (enhance w).isOk = true := by
  cases w with
  | obj kvs =>
    rw [WF] at hwf
    simp only [getVal, getValD, Bool.and_eq_true] at hwf
    obtain ⟨⟨⟨⟨⟨⟨⟨h1, h2⟩, h3⟩, h4⟩, h5⟩, h6⟩, h7⟩, h8⟩ := hwf
    obtain ⟨ai, hai⟩ := authorsStep_ok h4
    obtain ⟨fR, hfR, hfRs⟩ :=
      topicVals_ok h5 (fun t ht => WFtopic_field ht)
    obtain ⟨dR, hdR, hdRs⟩ :=
      topicVals_ok h5 (fun t ht => WFtopic_domain ht)
    obtain ⟨kR, hkR, hkRs⟩ := keywordsRawOf_ok h6 h7
    obtain ⟨ssf, hfs⟩ := pySortedSet_ok_of_strs hfRs
    obtain ⟨ssd, hds⟩ := pySortedSet_ok_of_strs hdRs
    obtain ⟨ssk, hks⟩ := pySortedSet_ok_of_strs hkRs
    obtain ⟨q, hq⟩ := ratioStep_ok h2 h3
    obtain ⟨jr, hjr⟩ := journalOf_ok h8
    have ht : (kvs.lookup "display_name").getD J.null = J.null ∨
        ∃ s, (kvs.lookup "display_name").getD J.null = J.str s := by
      cases hv : (kvs.lookup "display_name").getD J.null with
      | null => exact Or.inl rfl
      | str s => exact Or.inr ⟨s, rfl⟩
      | bool b => rw [hv] at h1; simp [strOrNull] at h1
      | int n => rw [hv] at h1; simp [strOrNull] at h1
      | arr xs => rw [hv] at h1; simp [strOrNull] at h1
      | obj kvs2 => rw [hv] at h1; simp [strOrNull] at h1
    obtain ⟨rt, hrt⟩ := topicStep_ok ht
      (fun x hx => by
        obtain ⟨s, _, h2⟩ := List.mem_map.mp hx
        exact ⟨s, h2.symm⟩)
      (fun x hx => by
        obtain ⟨s, _, h2⟩ := List.mem_map.mp hx
        exact ⟨s, h2.symm⟩)
      (fun x hx => by
        obtain ⟨s, _, h2⟩ := List.mem_map.mp (List.take_subset 5 _ hx)
        exact ⟨s, h2.symm⟩)
    unfold enhance
    simp only [pyGet, pyGetD_obj, eok_bind]
    rw [hai, eok_bind, hfR, eok_bind, hdR, eok_bind, hkR, eok_bind,
      hfs, eok_bind, hds, eok_bind, hks, eok_bind, hq, eok_bind,
      hjr, eok_bind, hrt, eok_bind]
    rfl
  | null => simp [WF] at hwf
  | bool b => simp [WF] at hwf
  | int n => simp [WF] at hwf
  | str s => simp [WF] at hwf
  | arr xs => simp [WF] at hwf

/-- Claim C2 as amended: for every raw record of the expected shape — a
JSON object whose nested values, where present, have the types the API
documents, with any subset of fields missing or null — the flattener
returns a flat record without raising; missing nested structure only
produces absent or empty output pieces. -/
theorem claim2_amended (w : J) (hwf : WF w = true) :
    (enhance w).isOk = true :=
  enhance_WF_ok w hwf

/-- Witness for the amended claim C2 at a rich well-shaped record. -/
theorem claim2_witness :
    WF wWFex = true ∧ (enhance wWFex).isOk = true :=
  ⟨rfl, claim2_amended wWFex rfl⟩

theorem exMapM_forall₂ {ε α β : Type} {f : α → Except ε β} :
    ∀ {l : List α} {bs : List β}, exMapM f l = .ok bs →
      List.Forall₂ (fun a b => f a = .ok b) l bs := by
  intro l
  induction l with
  | nil =>
    intro bs h
    injection h with h2
    rw [← h2]
    exact List.Forall₂.nil
  | cons a t ih =>
    intro bs h
    unfold exMapM at h
    rw [ebind_eq_ok] at h
    obtain ⟨b, hb, h⟩ := h
    rw [ebind_eq_ok] at h
    obtain ⟨bs2, hbs2, h⟩ := h
    rw [epure_eq_ok] at h
    injection h with h2
    rw [← h2]
    exact List.Forall₂.cons hb (ih hbs2)

theorem foldl_append_if : ∀ (l : List InstRec) (acc : List J),
    l.foldl (fun acc2 r => if pyTruthy r.institution_name then
      acc2 ++ [r.institution_name] else acc2) acc =
    acc ++ (l.map (fun r => r.institution_name)).filter pyTruthy
  | [], acc => by simp
  | r :: t, acc => by
    rw [List.foldl_cons, foldl_append_if t, List.map_cons, List.filter_cons]
    by_cases h : pyTruthy r.institution_name = true
    · simp [h]
    · have h2 : pyTruthy r.institution_name = false := by
        cases hx : pyTruthy r.institution_name
        · rfl
        · exact absurd hx h
      simp [h2]

theorem truthyNamesA_eq (ar : AuthorRec) :
    truthyNamesA ar =
      (ar.institutions.map (fun r => r.institution_name)).filter pyTruthy := by
  unfold truthyNamesA
  rw [foldl_append_if]
  rfl

theorem flatInstNames_acc : ∀ (l : List AuthorRec) (acc : List J),
    l.foldl (fun acc2 ar => acc2 ++ truthyNamesA ar) acc =
      acc ++ flatInstNames l
  | [], acc => by simp [flatInstNames]
  | ar :: t, acc => by
    rw [List.foldl_cons, flatInstNames_acc t]
    have h2 : flatInstNames (ar :: t) = truthyNamesA ar ++ flatInstNames t := by
      unfold flatInstNames
      rw [List.foldl_cons, flatInstNames_acc t]
      rfl
    rw [h2, List.append_assoc]

theorem flatInstNames_cons (ar : AuthorRec) (l : List AuthorRec) :
    flatInstNames (ar :: l) = truthyNamesA ar ++ flatInstNames l := by
  unfold flatInstNames
  rw [List.foldl_cons, flatInstNames_acc l]
  rfl

/-- Dissection of one successful `projAuthor`. -/
theorem projAuthor_parts {a : J} {ar : AuthorRec}
    (hp : projAuthor a = .ok ar) :
    ∃ il, authInsts a = .ok il ∧ exMapM projInst il = .ok ar.institutions := by
  cases a with
  | obj akvs =>
    unfold projAuthor at hp
    simp only [pyGetD_obj, eok_bind] at hp
    rw [ebind_eq_ok] at hp
    obtain ⟨aid, _, hp⟩ := hp
    rw [ebind_eq_ok] at hp
    obtain ⟨anm, _, hp⟩ := hp
    rw [ebind_eq_ok] at hp
    obtain ⟨orc, _, hp⟩ := hp
    rw [ebind_eq_ok] at hp
    obtain ⟨il, hil, hp⟩ := hp
    rw [ebind_eq_ok] at hp
    obtain ⟨irecs, hirecs, hp⟩ := hp
    rw [epure_eq_ok] at hp
    injection hp with hp2
    refine ⟨il, ?_, ?_⟩
    · unfold authInsts
      simp only [pyGetD_obj, eok_bind]
      exact hil
    · rw [← hp2]
      exact hirecs
  | null => simp [projAuthor, pyGetD] at hp
  | bool b => simp [projAuthor, pyGetD] at hp
  | int n => simp [projAuthor, pyGetD] at hp
  | str s => simp [projAuthor, pyGetD] at hp
  | arr xs => simp [projAuthor, pyGetD] at hp

/-- The institution-name set fold adds exactly the truthy names of the flat
institution records, in order. -/
theorem instFold_names : ∀ {il : List J} {irecs : List InstRec},
    List.Forall₂ (fun i r => projInst i = .ok r) il irecs →
    ∀ {s s' : List J},
    List.foldlM (fun acc i => do
      let n ← pyGetD i "display_name" J.null
      if pyTruthy n then
        if pyHashable n then pure (pyInsert acc n)
        else throw PyErr.typeError
      else pure acc) s il = .ok s' →
    s' = List.foldl pyInsert s
      ((irecs.map (fun r => r.institution_name)).filter pyTruthy) := by
  intro il irecs hF
  induction hF with
  | nil =>
    intro s s' h
    rw [List.foldlM_nil, epure_eq_ok] at h
    injection h with h2
    rw [← h2]
    rfl
  | @cons i r il2 irecs2 hir _ ih =>
    intro s s' h
    rw [List.foldlM_cons] at h
    cases i with
    | obj ikvs =>
      have hname : r.institution_name =
          (ikvs.lookup "display_name").getD J.null := by
        have : projInst (J.obj ikvs) =
            .ok ⟨(ikvs.lookup "id").getD J.null,
              (ikvs.lookup "display_name").getD J.null,
              (ikvs.lookup "country").getD J.null,
              (ikvs.lookup "type").getD J.null⟩ := rfl
        rw [this] at hir
        injection hir with h3
        rw [← h3]
      simp only [pyGetD_obj, eok_bind] at h
      rw [List.map_cons, List.filter_cons]
      by_cases htr : pyTruthy r.institution_name = true
      · simp only [htr, if_true]
        have htr2 : pyTruthy ((ikvs.lookup "display_name").getD J.null)
            = true := by rw [← hname]; exact htr
        rw [if_pos htr2] at h
        by_cases hh : pyHashable ((ikvs.lookup "display_name").getD J.null)
            = true
        · rw [if_pos hh, epure_eq_ok, eok_bind] at h
          rw [List.foldl_cons, hname]
          exact ih h
        · rw [if_neg hh] at h
          exact absurd h (by simp [throw, throwThe, MonadExceptOf.throw])
      · have htr2 : pyTruthy r.institution_name = false := by
          cases hx : pyTruthy r.institution_name
          · rfl
          · exact absurd hx htr
        simp only [htr2, Bool.false_eq_true, if_false]
        have htr3 : pyTruthy ((ikvs.lookup "display_name").getD J.null)
            = false := by rw [← hname]; exact htr2
        rw [htr3] at h
        simp only [Bool.false_eq_true, if_false, epure_eq_ok, eok_bind] at h
        exact ih h
    | null => exact absurd hir (by simp [projInst, pyGetD])
    | bool b => exact absurd hir (by simp [projInst, pyGetD])
    | int n => exact absurd hir (by simp [projInst, pyGetD])
    | str st => exact absurd hir (by simp [projInst, pyGetD])
    | arr xs => exact absurd hir (by simp [projInst, pyGetD])

/-- One author step adds exactly the truthy names of the author it
produces. -/
theorem addInstNames_names {a : J} {ar : AuthorRec} {s s' : List J}
    (hp : projAuthor a = .ok ar) (hn : addInstNames s a = .ok s') :
    s' = List.foldl pyInsert s (truthyNamesA ar) := by
  obtain ⟨il, hil, hirecs⟩ := projAuthor_parts hp
  unfold addInstNames at hn
  rw [ebind_eq_ok] at hn
  obtain ⟨il2, hil2, hn⟩ := hn
  rw [hil] at hil2
  injection hil2 with hil3
  subst hil3
  rw [truthyNamesA_eq]
  exact instFold_names (exMapM_forall₂ hirecs) hn

/-- Dissection of the whole authorship fold. -/
theorem authFold_spec : ∀ (auths : List J)
    (acc res : List AuthorRec × List J),
    List.foldlM (fun acc a => do
      let ar ← projAuthor a
      let s ← addInstNames acc.2 a
      pure (acc.1 ++ [ar], s)) acc auths = .ok res →
    ∃ ars, res.1 = acc.1 ++ ars ∧ List.Forall₂ authRel auths ars ∧
      res.2 = List.foldl pyInsert acc.2 (flatInstNames ars)
  | [], acc, res, h => by
    rw [List.foldlM_nil, epure_eq_ok] at h
    injection h with h2
    subst h2
    exact ⟨[], by simp, List.Forall₂.nil, by simp [flatInstNames]⟩
  | a :: rest, acc, res, h => by
    rw [List.foldlM_cons] at h
    rw [ebind_eq_ok] at h
    obtain ⟨acc1, hstep, h⟩ := h
    rw [ebind_eq_ok] at hstep
    obtain ⟨ar, har, hstep⟩ := hstep
    rw [ebind_eq_ok] at hstep
    obtain ⟨s1, hs1, hstep⟩ := hstep
    rw [epure_eq_ok] at hstep
    injection hstep with hstep2
    subst hstep2
    obtain ⟨ars2, hres1, hF, hres2⟩ := authFold_spec rest _ res h
    refine ⟨ar :: ars2, ?_, ?_, ?_⟩
    · rw [hres1]
      simp
    · refine List.Forall₂.cons ?_ hF
      obtain ⟨il, hil, hirecs⟩ := projAuthor_parts har
      exact ⟨il, hil, hirecs⟩
    · rw [hres2]
      simp only
      rw [addInstNames_names har hs1, flatInstNames_cons,
        List.foldl_append]

/-- Claim C10: every institution entry of every authorship appears,
projected, in that author's flat institutions list, while
`institutions_count` counts only the distinct truthy institution names, so
it can be 0 with non-empty institution lists. -/
theorem claim10_institutions {w : J} {flat : Enhanced}
    (h : enhance w = .ok flat) :
    (∃ auths : List J,
      pyIter (getValD w "authorships" (J.arr [])) = .ok auths ∧
      List.Forall₂ authRel auths flat.authors) ∧
    flat.institutions_count =
      (pyDedup (flatInstNames flat.authors)).length ∧
    (∃ flat0, enhance wC10ex = .ok flat0 ∧
      flat0.institutions_count = 0 ∧
      flat0.authors.map (fun a => a.institutions.length) = [1]) := by
  obtain ⟨kvs, ai, fR, dR, kR, fs0, ds0, ks0, cpr, jr, rt, hw, hai, _, _, _,
    _, _, _, _, _, _, hflat⟩ := enhance_ok_parts h
  subst hflat
  subst hw
  simp only
  unfold authorsStep at hai
  simp only [pyGetD_obj, eok_bind] at hai
  rw [ebind_eq_ok] at hai
  obtain ⟨auths, hiter, hfold⟩ := hai
  obtain ⟨ars, hres1, hF, hres2⟩ := authFold_spec auths ([], []) ai hfold
  simp only [List.nil_append] at hres1
  refine ⟨⟨auths, hiter, by rw [hres1]; exact hF⟩, ?_, ?_⟩
  · rw [hres2, hres1]
    rfl
  · exact ⟨flatOf wC10ex, rfl, rfl, rfl⟩

/-- Witness for claim C10 at a record whose only institution entry has no
display name: the entry is listed, the count is zero. -/
theorem claim10_witness :
    ((∃ auths : List J,
        pyIter (getValD wC10ex "authorships" (J.arr [])) = .ok auths ∧
        List.Forall₂ authRel auths (flatOf wC10ex).authors) ∧
      (flatOf wC10ex).institutions_count =
        (pyDedup (flatInstNames (flatOf wC10ex).authors)).length ∧
      (∃ flat0, enhance wC10ex = .ok flat0 ∧
        flat0.institutions_count = 0 ∧
        flat0.authors.map (fun a => a.institutions.length) = [1])) :=
  @claim10_institutions wC10ex (flatOf wC10ex) rfl

/-- Claim C4: with a truthy `resume_from_page = R`, an existing checkpoint
for page `R-1` makes the run start from its (stripped) cursor with
`page_count = R-1`, `total_downloaded` the line count over the existing
per-page files `1..R-1`, and the cumulative file opened in append mode
(its content kept); an absent checkpoint silently degrades to a fresh
overwrite run, identical to a run without resumption. -/
theorem claim4_resume (pre : FS) (R : ℤ) (hR : R ≠ 0) :
    (∀ c, pre.cursors.lookup (R - 1) = some c →
      initRun (some R) pre =
        ⟨pyStrip c, R - 1,
          ((intRange 1 R).map
            (fun i => ((pre.pages.lookup i).getD []).length)).sum,
          pre.main, pre.pages, pre.cursors⟩) ∧
    (pre.cursors.lookup (R - 1) = none →
      initRun (some R) pre = freshInit pre ∧
      (freshInit pre).main = [] ∧
      ∀ oracle, runFetch (some R) pre oracle = runFetch none pre oracle) := by
  have hred : initRun (some R) pre =
      (if R ≠ 0 then
        match pre.cursors.lookup (R - 1) with
        | some c =>
          ⟨pyStrip c, R - 1,
            ((intRange 1 R).map
              (fun i => ((pre.pages.lookup i).getD []).length)).sum,
            pre.main, pre.pages, pre.cursors⟩
        | none => freshInit pre
      else freshInit pre) := rfl
  constructor
  · intro c hc
    rw [hred, if_pos hR, hc]
  · intro hc
    have h2 : initRun (some R) pre = freshInit pre := by
      rw [hred, if_pos hR, hc]
    exact ⟨h2, rfl, fun oracle => by unfold runFetch; rw [h2]; rfl⟩

/-- Witness for claim C4: a resume from page 3 over a two-page state with a
padded checkpoint token, and a resume whose checkpoint is missing. -/
theorem claim4_witness :
    (initRun (some 3) preC4 =
      ⟨pyStrip " ctok ", 3 - 1,
        ((intRange 1 3).map
          (fun i => ((preC4.pages.lookup i).getD []).length)).sum,
        preC4.main, preC4.pages, preC4.cursors⟩) ∧
    (initRun (some 3) preResume = freshInit preResume ∧
      (freshInit preResume).main = [] ∧
      ∀ oracle, runFetch (some 3) preResume oracle =
        runFetch none preResume oracle) ∧
    initRun (some 3) preC4 =
      ⟨"ctok", 2, 3, preC4.main, preC4.pages, preC4.cursors⟩ :=
  ⟨(claim4_resume preC4 3 (by decide)).1 " ctok " rfl,
    (claim4_resume preResume 3 (by decide)).2 rfl, rfl⟩

/-- Breaking iteration: a non-200 response returns the current state with
only the page counter bumped, regardless of what follows in the oracle. -/
theorem loop_break {r : Resp} {rest : List Resp} {st : RunSt}
    (hs : r.status ≠ 200) :
    loop (r :: rest) st = .ok {st with page_count := st.page_count + 1} := by
  unfold loop
  rw [if_pos hs]

/-- Continuing iteration: a 200 response with a truthy next cursor steps
the state with `contStep` and recurses. -/
theorem loop_cont {r : Resp} {rest : List Resp} {st : RunSt} {c : String}
    (hs : r.status = 200) (hc : r.nextCursor = some c) (hcne : c ≠ "") :
    loop (r :: rest) st = (contStep st r) >>= fun st2 => loop rest st2 := by
  have hs2 : ¬ (r.status ≠ 200) := by rw [hs]; simp
  unfold contStep
  conv_lhs => unfold loop
  rw [if_neg hs2]
  cases hm : exMapM enhance r.results with
  | error e => rfl
  | ok lines =>
    simp only [hc, Option.getD_some]
    rw [if_pos hcne]
    rfl

/-- A run of good pages factors through the fold of `contStep`. -/
theorem loop_good_pages : ∀ (good : List Resp) (st : RunSt),
    (∀ r ∈ good, r.status = 200 ∧ ∃ c, r.nextCursor = some c ∧ c ≠ "") →
    ∀ tl, loop (good ++ tl) st =
      (good.foldlM contStep st) >>= fun st2 => loop tl st2
  | [], st, _, tl => by
    rw [List.foldlM_nil, List.nil_append, epure_eq_ok, eok_bind]
  | r :: rest, st, hgood, tl => by
    obtain ⟨hs, c, hc, hcne⟩ := hgood r (List.mem_cons_self r rest)
    rw [List.cons_append, loop_cont hs hc hcne, List.foldlM_cons]
    cases hcont : contStep st r with
    | error e => rfl
    | ok st2 =>
      rw [eok_bind, eok_bind]
      exact loop_good_pages rest st2
        (fun x hx => hgood x (List.mem_cons_of_mem _ hx)) tl

/-- A well-shaped 200 page with a truthy cursor always steps. -/
theorem contStep_ok {st : RunSt} {r : Resp}
    (hwf : ∀ wk ∈ r.results, WF wk = true) :
    ∃ st2, contStep st r = .ok st2 := by
  unfold contStep
  have hm : ∃ lines, exMapM enhance r.results = .ok lines := by
    have h2 : ∀ wk ∈ r.results, ∃ e, enhance wk = .ok e ∧ True := by
      intro wk hk
      have h3 := enhance_WF_ok wk (hwf wk hk)
      cases he : enhance wk with
      | ok e => exact ⟨e, rfl, trivial⟩
      | error e => rw [he] at h3; simp [Except.isOk, Except.toBool] at h3
    obtain ⟨lines, hl, _⟩ := exMapM_ok_prop h2
    exact ⟨lines, hl⟩
  obtain ⟨lines, hl⟩ := hm
  rw [hl]
  exact ⟨_, rfl⟩

/-- Claim C5: a run over any number of well-shaped good pages followed by a
failing response halts with no exception: the final state is exactly the
state after the good pages, with only the page counter bumped by the
failing request (all earlier persisted data intact, nothing written for the
failing page), and the responses after the failing one are never consumed
(no retry). -/
theorem claim5_http_halt (resume : Option ℤ) (pre : FS)
    (good : List Resp) (bad : Resp) (rest rest2 : List Resp)
    (hgood : ∀ r ∈ good, r.status = 200 ∧
      (∀ wk ∈ r.results, WF wk = true) ∧
      ∃ c, r.nextCursor = some c ∧ c ≠ "")
    (hbad : bad.status ≠ 200) :
    ∃ stg, good.foldlM contStep (initRun resume pre) = .ok stg ∧
      runFetch resume pre (good ++ bad :: rest) =
        .ok {stg with page_count := stg.page_count + 1} ∧
      runFetch resume pre (good ++ bad :: rest) =
        runFetch resume pre (good ++ bad :: rest2) := by
  have hfold : ∃ stg, good.foldlM contStep (initRun resume pre) = .ok stg := by
    have hbody : ∀ r ∈ good, ∀ st : RunSt, True →
        ∃ st2, contStep st r = .ok st2 ∧ True := by
      intro r hr st _
      obtain ⟨st2, hst2⟩ := contStep_ok (hgood r hr).2.1
      exact ⟨st2, hst2, trivial⟩
    obtain ⟨stg, hstg, _⟩ := foldlM_ok_inv hbody (initRun resume pre) trivial
    exact ⟨stg, hstg⟩
  obtain ⟨stg, hstg⟩ := hfold
  have hrun : ∀ tl : List Resp,
      runFetch resume pre (good ++ bad :: tl) =
        .ok {stg with page_count := stg.page_count + 1} := by
    intro tl
    unfold runFetch
    rw [loop_good_pages good (initRun resume pre)
      (fun r hr => ⟨(hgood r hr).1, (hgood r hr).2.2⟩) (bad :: tl)]
    rw [hstg, eok_bind, loop_break hbad]
  exact ⟨stg, hstg, hrun rest, by rw [hrun rest, hrun rest2]⟩

/-- Witness for claim C5: one good page with one record, then a 404, then
an extra response that is never consumed. -/
theorem claim5_witness :
    ∃ stg, [respOne].foldlM contStep (initRun none preResume) = .ok stg ∧
      runFetch none preResume ([respOne] ++ respFail :: [respEnd]) =
        .ok {stg with page_count := stg.page_count + 1} ∧
      runFetch none preResume ([respOne] ++ respFail :: [respEnd]) =
        runFetch none preResume ([respOne] ++ respFail :: []) :=
  claim5_http_halt none preResume [respOne] respFail [respEnd] []
    (by
      intro r hr
      rw [List.mem_singleton.mp hr]
      exact ⟨rfl, by intro wk hk; rw [List.mem_singleton.mp hk]; rfl,
        "c1", rfl, by decide⟩)
    (by decide)

theorem upsert_append {α : Type} : ∀ {l : List (ℤ × α)} {k : ℤ} {v : α},
    (∀ p ∈ l, p.1 < k) → upsert l k v = l ++ [(k, v)]
  | [], k, v, _ => rfl
  | (k', v') :: t, k, v, h => by
    have hk : k' < k := h (k', v') (by simp)
    unfold upsert
    rw [if_neg (by omega), if_neg (by omega)]
    rw [upsert_append (fun p hp => h p (List.mem_cons_of_mem _ hp))]
    rfl

theorem pageKeys_succ (n : ℕ) :
    pageKeys (n + 1) = pageKeys n ++ [(n : ℤ) + 1] := by
  simp [pageKeys, List.range_succ]

theorem pageKeys_le {n : ℕ} : ∀ k ∈ pageKeys n, k ≤ (n : ℤ) := by
  induction n with
  | zero =>
    intro k hk
    simp [pageKeys] at hk
  | succ m ih =>
    intro k hk
    rw [pageKeys_succ] at hk
    rcases List.mem_append.mp hk with h1 | h2
    · have h3 := ih k h1
      omega
    · have h3 : k = (m : ℤ) + 1 := List.mem_singleton.mp h2
      omega

theorem joinPages_append (pages : List (ℤ × List Enhanced)) (k : ℤ)
    (lines : List Enhanced) :
    joinPages (pages ++ [(k, lines)]) = joinPages pages ++ lines := by
  unfold joinPages
  rw [List.map_append, List.flatten_append]
  simp

/-- The loop invariant of claim C1: when the run starts with per-page files
exactly `1..n` whose concatenation is the cumulative file, every state the
loop returns still has its cumulative file equal to the concatenation of
its per-page files, and the run only appended to the cumulative file. -/
theorem loop_inv : ∀ (rs : List Resp) (st st' : RunSt),
    loop rs st = .ok st' →
    st.pages.map Prod.fst = pageKeys st.pages.length →
    st.main = joinPages st.pages →
    (st.pages.length : ℤ) = st.page_count →
    (st'.pages.map Prod.fst = pageKeys st'.pages.length ∧
      st'.main = joinPages st'.pages ∧
      ∃ t, st'.main = st.main ++ t)
  | [], st, st', h, _, _, _ => by
    exact absurd h (by simp [loop])
  | r :: rest, st, st', h, hkeys, hmain, hlen => by
    unfold loop at h
    by_cases hs : r.status ≠ 200
    · rw [if_pos hs] at h
      injection h with h2
      subst h2
      exact ⟨hkeys, hmain, ⟨[], by simp⟩⟩
    · rw [if_neg hs] at h
      cases hm : exMapM enhance r.results with
      | error e =>
        rw [hm] at h
        exact absurd h (by simp)
      | ok lines =>
        rw [hm] at h
        have hup : upsert st.pages (st.page_count + 1) lines =
            st.pages ++ [(st.page_count + 1, lines)] :=
          upsert_append (fun p hp => by
            have hk2 : p.1 ∈ st.pages.map Prod.fst :=
              List.mem_map.mpr ⟨p, hp, rfl⟩
            rw [hkeys] at hk2
            have h3 := pageKeys_le p.1 hk2
            omega)
        have hkeys2 : (st.pages ++ [(st.page_count + 1, lines)]).map Prod.fst
            = pageKeys (st.pages ++ [(st.page_count + 1, lines)]).length := by
          rw [List.map_append, hkeys, List.length_append]
          simp only [List.map_cons, List.map_nil, List.length_singleton]
          rw [pageKeys_succ, ← hlen]
        have hmain2 : st.main ++ lines =
            joinPages (st.pages ++ [(st.page_count + 1, lines)]) := by
          rw [joinPages_append, hmain]
        have hlen2 : (((st.pages ++ [(st.page_count + 1, lines)]).length : ℤ))
            = st.page_count + 1 := by
          rw [List.length_append, List.length_singleton]
          push_cast
          omega
        cases hc : r.nextCursor with
        | none =>
          rw [hc] at h
          have h2 : Except.ok (⟨st.cursor, st.page_count + 1,
              st.total_downloaded + r.results.length, st.main ++ lines,
              upsert st.pages (st.page_count + 1) lines, st.cursors⟩ : RunSt)
              = .ok st' := h
          injection h2 with h3
          subst h3
          refine ⟨?_, ?_, ⟨lines, rfl⟩⟩
          · show (upsert st.pages (st.page_count + 1) lines).map Prod.fst =
              pageKeys (upsert st.pages (st.page_count + 1) lines).length
            rw [hup]
            exact hkeys2
          · show st.main ++ lines =
              joinPages (upsert st.pages (st.page_count + 1) lines)
            rw [hup]
            exact hmain2
        | some c =>
          rw [hc] at h
          by_cases hce : c ≠ ""
          · have h2 : loop rest (⟨c, st.page_count + 1,
                st.total_downloaded + r.results.length, st.main ++ lines,
                upsert st.pages (st.page_count + 1) lines,
                upsert st.cursors (st.page_count + 1) c⟩ : RunSt)
                = .ok st' := by
              have h3 : (if c ≠ "" then
                  loop rest ⟨c, st.page_count + 1,
                    st.total_downloaded + r.results.length,
                    st.main ++ lines,
                    upsert st.pages (st.page_count + 1) lines,
                    upsert st.cursors (st.page_count + 1) c⟩
                else Except.ok ⟨st.cursor, st.page_count + 1,
                  st.total_downloaded + r.results.length, st.main ++ lines,
                  upsert st.pages (st.page_count + 1) lines, st.cursors⟩)
                  = .ok st' := h
              rw [if_pos hce] at h3
              exact h3
            obtain ⟨hk', hm', t, ht⟩ := loop_inv rest _ st' h2
              (by
                show (upsert st.pages (st.page_count + 1) lines).map Prod.fst
                  = pageKeys (upsert st.pages (st.page_count + 1) lines).length
                rw [hup]
                exact hkeys2)
              (by
                show st.main ++ lines =
                  joinPages (upsert st.pages (st.page_count + 1) lines)
                rw [hup]
                exact hmain2)
              (by
                show ((upsert st.pages (st.page_count + 1) lines).length : ℤ)
                  = st.page_count + 1
                rw [hup]
                exact hlen2)
            exact ⟨hk', hm', ⟨lines ++ t, by rw [ht, List.append_assoc]⟩⟩
          · have h2 : (Except.ok ⟨st.cursor, st.page_count + 1,
                st.total_downloaded + r.results.length, st.main ++ lines,
                upsert st.pages (st.page_count + 1) lines, st.cursors⟩
                : Except RunErr RunSt)
                = Except.ok st' := by
              have h3 : (if c ≠ "" then
                  loop rest ⟨c, st.page_count + 1,
                    st.total_downloaded + r.results.length,
                    st.main ++ lines,
                    upsert st.pages (st.page_count + 1) lines,
                    upsert st.cursors (st.page_count + 1) c⟩
                else Except.ok ⟨st.cursor, st.page_count + 1,
                  st.total_downloaded + r.results.length, st.main ++ lines,
                  upsert st.pages (st.page_count + 1) lines, st.cursors⟩)
                  = .ok st' := h
              rw [if_neg hce] at h3
              exact h3
            injection h2 with h3
            subst h3
            refine ⟨?_, ?_, ⟨lines, rfl⟩⟩
            · show (upsert st.pages (st.page_count + 1) lines).map Prod.fst =
                pageKeys (upsert st.pages (st.page_count + 1) lines).length
              rw [hup]
              exact hkeys2
            · show st.main ++ lines =
                joinPages (upsert st.pages (st.page_count + 1) lines)
              rw [hup]
              exact hmain2

theorem joinPages_length (pages : List (ℤ × List Enhanced)) :
    (joinPages pages).length = (pages.map (fun p => p.2.length)).sum := by
  unfold joinPages
  rw [List.length_flatten, List.map_map]
  rfl

/-- Claim C1 counterexample: a fresh run over a directory still holding the
per-page files of an earlier run. The run truncates the cumulative file (the
source opens it in mode w) but never deletes stale per-page files, so after
an immediate HTTP failure the cumulative file holds 0 records while the
surviving per-page files hold 2. -/
theorem claim1_counterexample :
    ∃ st : RunSt, runFetch none preC1 [respFail] = Except.ok st ∧
      st.main.length = 0 ∧
      (st.pages.map (fun p => p.2.length)).sum = 2 ∧
      st.main.length ≠ (st.pages.map (fun p => p.2.length)).sum :=
  ⟨⟨"*", 1, 0, [], preC1.pages, preC1.cursors⟩, rfl, rfl, rfl, by decide⟩

/-- Claim C1 (amended): for every run whose starting directory is
consistent — either a fresh run over a directory with no per-page files, or
a resumed run whose checkpoint for page R-1 exists and whose per-page files
are exactly pages 1..R-1 with the cumulative file their concatenation — any
normal or HTTP-failure termination leaves the cumulative record count equal
to the sum of the per-page record counts, and a resumed run only appends to
the cumulative file. -/
theorem claim1_amended (resume : Option ℤ) (pre : FS) (oracle : List Resp)
    (st : RunSt)
    (hpre : (resume = none ∧ pre.pages = []) ∨
      (∃ R c, resume = some R ∧ R ≠ 0 ∧
        pre.cursors.lookup (R - 1) = some c ∧
        pre.pages.map Prod.fst = pageKeys pre.pages.length ∧
        pre.main = joinPages pre.pages ∧
        (pre.pages.length : ℤ) = R - 1))
    (h : runFetch resume pre oracle = Except.ok st) :
    st.main.length = (st.pages.map (fun p => p.2.length)).sum ∧
      (∀ R, resume = some R → ∃ t, st.main = pre.main ++ t) := by
  rcases hpre with ⟨hr, hp⟩ | ⟨R, c, hr, hR, hc, hk, hm, hl⟩
  · subst hr
    obtain ⟨hk2, hm2, -⟩ := loop_inv oracle (initRun none pre) st h
      (by
        show pre.pages.map Prod.fst = pageKeys pre.pages.length
        rw [hp]
        rfl)
      (by
        show ([] : List Enhanced) = joinPages pre.pages
        rw [hp]
        rfl)
      (by
        show ((pre.pages.length : ℕ) : ℤ) = 0
        rw [hp]
        rfl)
    refine ⟨?_, fun R2 hR2 => Option.noConfusion hR2⟩
    rw [hm2]
    exact joinPages_length st.pages
  · subst hr
    have h0 : initRun (some R) pre =
        ⟨pyStrip c, R - 1,
          ((intRange 1 R).map
            (fun i => ((pre.pages.lookup i).getD []).length)).sum,
          pre.main, pre.pages, pre.cursors⟩ := by
      have hred : initRun (some R) pre =
          (if R ≠ 0 then
            match pre.cursors.lookup (R - 1) with
            | some c2 =>
              (⟨pyStrip c2, R - 1,
                ((intRange 1 R).map
                  (fun i => ((pre.pages.lookup i).getD []).length)).sum,
                pre.main, pre.pages, pre.cursors⟩ : RunSt)
            | none => freshInit pre
          else freshInit pre) := rfl
      rw [hred, if_pos hR, hc]
    unfold runFetch at h
    rw [h0] at h
    obtain ⟨hk2, hm2, t, ht⟩ := loop_inv oracle _ st h
      (by
        show pre.pages.map Prod.fst = pageKeys pre.pages.length
        exact hk)
      (by
        show pre.main = joinPages pre.pages
        exact hm)
      (by
        show ((pre.pages.length : ℕ) : ℤ) = R - 1
        exact hl)
    refine ⟨?_, fun R2 hR2 => ⟨t, ht⟩⟩
    rw [hm2]
    exact joinPages_length st.pages

/-- Witness for claim C1 (amended): resuming from page 2 over the
one-completed-page directory, with the last page empty, keeps the count
invariant and appends (an empty tail) to the cumulative file. -/
theorem claim1_witness :
    ∃ st : RunSt, runFetch (some 2) preResume [respEnd] = Except.ok st ∧
      st.main.length = (st.pages.map (fun p => p.2.length)).sum ∧
      ∃ t, st.main = preResume.main ++ t := by
  obtain ⟨h1, h2⟩ := claim1_amended (some 2) preResume [respEnd]
    ⟨"tok", 2, 1, [e0], [(1, [e0]), (2, [])], [(1, "tok")]⟩
    (Or.inr ⟨2, "tok", rfl, by decide, rfl, rfl, rfl, rfl⟩)
    rfl
  exact ⟨⟨"tok", 2, 1, [e0], [(1, [e0]), (2, [])], [(1, "tok")]⟩,
    rfl, h1, h2 2 rfl⟩

end BC
